import Mathlib

/-!
Verification of the soft-EEPROM storage engine (softeeprom.c, softeeprom_wrapper.c).

Shallow embedding conventions:
- Flash memory is a total function from 32-bit-word index to word value
  (the C code is byte-addressed but every access is 4-byte aligned, so a C
  byte address corresponds to word index addr/4; pointer arithmetic in units
  of 4 bytes becomes +1 here).
- The EEPROM region is normalized to start at word index 0; a configuration
  records the number of pages, the page size in words, and the flash size in
  words (for the SysCtlFlashSizeGet range check in SoftEEPROMInit).
- The flash controller (FlashProgram / FlashErase, outside this repository)
  is a parameter: a Flash structure maps a requested program/erase operation
  to either a reported failure (none) or a reported success together with the
  resulting memory contents (some mem).  idealFlash is the device that always
  succeeds and writes exactly what was requested.
- Machine integers are Nat with explicit % 2^32 (resp. % 2^16) where the C
  unsigned arithmetic can wrap.
- ASSERT() statements compile to nothing in release builds and are not part
  of the modeled semantics.
-/

namespace SoftEEPROM

/-- One memory word per address (word index = C byte address / 4). -/
abbrev Mem := Nat → Nat

/-- ERASED_WORD 0xFFFFFFFF: value read from an erased status word or entry. -/
def ERASED_WORD : Nat := 0xFFFFFFFF

/-- MAX_SOFTEEPROM_IDS (softeeprom.h). -/
def MAX_SOFTEEPROM_IDS : Nat := 127

/-- NUM_IDS = MAX_SOFTEEPROM_IDS. -/
def NUM_IDS : Nat := MAX_SOFTEEPROM_IDS

/-- NUM_VECTOR_BITS = NUM_IDS + 8 - (NUM_IDS % 8). -/
def NUM_VECTOR_BITS : Nat := NUM_IDS + 8 - (NUM_IDS % 8)

/-- NUM_VECTOR_BYTES = NUM_VECTOR_BITS / 8: size of the ucIDSwapped bit
vector in PageSwap, in bytes. -/
def NUM_VECTOR_BYTES : Nat := NUM_VECTOR_BITS / 8

/-- Error codes from softeeprom.h. -/
def ERR_NOT_INIT : Nat := 0x0001

def ERR_ILLEGAL_ID : Nat := 0x0002

def ERR_PG_ERASE : Nat := 0x0003

def ERR_PG_WRITE : Nat := 0x0004

def ERR_ACTIVE_PG_CNT : Nat := 0x0005

def ERR_RANGE : Nat := 0x0006

def ERR_AVAIL_ENTRY : Nat := 0x0007

def ERR_TWO_ACTIVE_NO_FULL : Nat := 0x0008

def ERR_SWAP : Nat := 0x8000

/-- Modelled from the spec: softeeprom_wrapper.h is not part of the
repository sources, so the numeric value of ERR_PAGE_RANGE (the RangeError
code returned by the addressing wrapper's range check) is unknown; it is
modeled as a code distinct from every code defined in softeeprom.h and from
their ERR_SWAP combinations. -/
def ERR_PAGE_RANGE : Nat := 0x0009

/-- Engine configuration: region normalized to word index 0.
numPages = (ulEnd - ulStart) / ulSize, pageWords = ulSize / 4,
flashSize = SysCtlFlashSizeGet() / 4. -/
structure Cfg where
  numPages : Nat
  pageWords : Nat
  flashSize : Nat

/-- First word index past the EEPROM region (g_pucEEPROMEnd). -/
def Cfg.endAddr (cfg : Cfg) : Nat := cfg.numPages * cfg.pageWords

/-- The engine's global state: flash contents plus the static globals
g_bEEPROMInitialized, g_pucActivePage, g_pucNextAvailEntry. -/
structure EEState where
  mem : Mem
  initialized : Bool
  activePage : Nat
  nextAvailEntry : Nat

/-- Program a single word (ideal device effect). The block-device contract
allows each location to be programmed once per erase cycle; the engine never
programs a location twice, so plain overwrite semantics coincide with the
NOR 1-to-0 semantics on every path the engine takes. -/
def progWord (mem : Mem) (a v : Nat) : Mem :=
  fun x => if x = a then v else mem x

/-- Program a list of words at consecutive addresses (ideal device effect). -/
def writeList (mem : Mem) : Nat → List Nat → Mem
  | _, [] => mem
  | a, w :: ws => writeList (progWord mem a w) (a + 1) ws

/-- Erase n consecutive words starting at p (ideal device effect). -/
def eraseRegion (mem : Mem) (p n : Nat) : Mem :=
  fun x => if p ≤ x ∧ x < p + n then ERASED_WORD else mem x

/-- The flash controller, a platform collaborator outside this repository
(spec section 6).  program/erase return none when the hardware reports
failure, and some mem' when it reports success, where mem' is the actual
resulting contents (a faulty part may report success yet leave wrong data:
that is exactly what the engine's read-back verification is meant to catch). -/
structure Flash where
  program : Mem → Nat → List Nat → Option Mem
  eraseRange : Mem → Nat → Nat → Option Mem

/-- The flash device that always succeeds and writes what was requested. -/
def idealFlash : Flash where
  program := fun mem a ws => some (writeList mem a ws)
  eraseRange := fun mem p n => some (eraseRegion mem p n)

/-- PageErase: erase the flash blocks of one EEPROM page, then verify the
erase by checking that the two status words read as ERASED_WORD. -/
def PageErase (fl : Flash) (cfg : Cfg) (mem : Mem) (pucPageAddr : Nat) :
    Option Mem :=
  match fl.eraseRange mem pucPageAddr cfg.pageWords with
  | none => none
  | some m' =>
      if m' pucPageAddr = ERASED_WORD ∧ m' (pucPageAddr + 1) = ERASED_WORD then
        some m'
      else
        none

/-- The read-back verification loop of PageDataWrite (softeeprom.c line 326):

  for(ulByteCount = 0; ulByteCount < ulByteCount; ulByteCount += 4) { ... }

The loop reuses ulByteCount as both the running counter and the bound, so the
guard compares the variable with itself and the comparison body (reading each
programmed word back and comparing it with the data written) is never
executed. -/
def PageDataWriteVerify (m' : Mem) (pucPgAddr : Nat) (pulData : List Nat)
    (ulByteCount : Nat) : Bool :=
  if h : ulByteCount < ulByteCount then absurd h (Nat.lt_irrefl _)
  else true

/-- PageDataWrite: program words at an address via FlashProgram, then run the
(read-back) verification loop.  Returns none on failure (C return -1). -/
def PageDataWrite (fl : Flash) (mem : Mem) (pucPgAddr : Nat)
    (pulData : List Nat) : Option Mem :=
  match fl.program mem pucPgAddr pulData with
  | none => none
  | some m' =>
      if PageDataWriteVerify m' pucPgAddr pulData 0 then some m' else none

/-- PageIsActive: first status word not erased, second status word erased. -/
def PageIsActive (mem : Mem) (pucPageAddr : Nat) : Bool :=
  (mem pucPageAddr != ERASED_WORD) && (mem (pucPageAddr + 1) == ERASED_WORD)

/-- PageIsUsed: both status words not erased. -/
def PageIsUsed (mem : Mem) (pucPageAddr : Nat) : Bool :=
  (mem pucPageAddr != ERASED_WORD) && (mem (pucPageAddr + 1) != ERASED_WORD)

/-- GetActivePageCount: number of pages marked active. -/
def GetActivePageCount (cfg : Cfg) (mem : Mem) : Nat :=
  (List.range cfg.numPages).countP fun i => PageIsActive mem (i * cfg.pageWords)

/-- GetUsedPageCount: number of pages marked used. -/
def GetUsedPageCount (cfg : Cfg) (mem : Mem) : Nat :=
  (List.range cfg.numPages).countP fun i => PageIsUsed mem (i * cfg.pageWords)

/-- The page following p in round-robin order (the common idiom
((p + pgSize) < end) ? (p + pgSize) : start). -/
def nextPageAddr (cfg : Cfg) (p : Nat) : Nat :=
  if p + cfg.pageWords < cfg.endAddr then p + cfg.pageWords else 0

/-- GetNextAvailEntry: first erased entry of the active page, scanning
forward; one past the page's last entry when the page is full. -/
def GetNextAvailEntry (cfg : Cfg) (mem : Mem) (pucActivePage : Nat) : Nat :=
  match (List.range (cfg.pageWords - 2)).find?
      (fun usIdx => mem (pucActivePage + 2 + usIdx) == ERASED_WORD) with
  | some usIdx => pucActivePage + 2 + usIdx
  | none => pucActivePage + 2 + (cfg.pageWords - 2)

/-- The sentinel pointer value 0xFFFFFFFF returned by
GetMostRecentlyUsedPage when it selects no page. -/
def MRU_NONE : Nat := 0xFFFFFFFF

/-- GetMostRecentlyUsedPage: fold over the pages keeping the used page with
the highest first status word; the running maximum starts at 0 and a page is
taken only when its status word is strictly greater. -/
def GetMostRecentlyUsedPage (cfg : Cfg) (mem : Mem) : Nat :=
  ((List.range cfg.numPages).foldl
    (fun acc i =>
      let p := i * cfg.pageWords
      if PageIsUsed mem p && decide (acc.1 < mem p) then (mem p, p) else acc)
    ((0 : Nat), MRU_NONE)).2

/-- The guard of the copy step in PageSwap (softeeprom.c lines 483-484):

  ((ucIDSwapped[usEntryID / 8] & (0x1 << (usEntryID % 8))) == 0)
     && (usEntryID != 0xFF)

The byte array ucIDSwapped (NUM_VECTOR_BYTES bytes) is modeled as the total
function seen : Nat → Bool; the C bit lookup at byte usEntryID / 8, bit
usEntryID % 8 becomes seen usEntryID. -/
def swapGuard (seen : Nat → Bool) (usEntryID : Nat) : Bool :=
  (!seen usEntryID) && (usEntryID != 0xFF)

/-- The byte index into ucIDSwapped computed by the guard. -/
def vecByteIndex (usEntryID : Nat) : Nat := usEntryID / 8

/-- The copy loop of PageSwap, at the level of entry-word lists.  The input
list is the full page's entries in scan order (last entry first, since
pucUsedEntry starts at the page's last entry and decrements); the output is
the contents of the write buffer in program order: each entry whose id passes
the guard, with its id then marked in the bit vector. -/
def swapScan (seen : Nat → Bool) : List Nat → List Nat
  | [] => []
  | ulEntry :: rest =>
      let usEntryID := ulEntry / 65536 % 65536
      if swapGuard seen usEntryID then
        ulEntry :: swapScan (fun j => if j = usEntryID then true else seen j) rest
      else
        swapScan seen rest

/-- The entry words of the page at p, in address order. -/
def pageEntries (cfg : Cfg) (mem : Mem) (p : Nat) : List Nat :=
  (List.range (cfg.pageWords - 2)).map fun i => mem (p + 2 + i)

/-- The sequence of entry words PageSwap moves to the new page, in the order
they are programmed there (scan runs from the last entry of the full page
backward; an id is copied only the first time it is seen). -/
def PageSwapCopied (cfg : Cfg) (mem : Mem) (pucFullPageAddr : Nat) :
    List Nat :=
  swapScan (fun _ => false) (pageEntries cfg mem pucFullPageAddr).reverse

/-- PageSwap.  Mirrors softeeprom.c: erase the next page; copy the most
recent entry of each id (scanning the full page backward, bit vector
ucIDSwapped); mark the new page active with counter = old counter + 1; mark
the full page used; update the globals; finally check that the next
available entry still lies inside the new page.

The C code flushes the copy buffer to flash in batches sized to the flash
write buffer; the resulting memory contents equal one sequential write of
the whole copied list at the new page's first entry, which is how the data
programming is represented here. -/
def PageSwap (fl : Flash) (cfg : Cfg) (s : EEState)
    (pucFullPageAddr : Nat) : Nat × EEState :=
  let pucNewPageAddr := nextPageAddr cfg pucFullPageAddr
  match PageErase fl cfg s.mem pucNewPageAddr with
  | none => (ERR_SWAP ||| ERR_PG_ERASE, s)
  | some m1 =>
      let copied := PageSwapCopied cfg m1 pucFullPageAddr
      match PageDataWrite fl m1 (pucNewPageAddr + 2) copied with
      | none => (ERR_SWAP ||| ERR_PG_WRITE, s)
      | some m2 =>
          match PageDataWrite fl m2 pucNewPageAddr
              [(m2 pucFullPageAddr + 1) % 4294967296] with
          | none => (ERR_SWAP ||| ERR_PG_WRITE, s)
          | some m3 =>
              match PageDataWrite fl m3 (pucFullPageAddr + 1) [0] with
              | none => (ERR_SWAP ||| ERR_PG_WRITE, s)
              | some m4 =>
                  let s' : EEState :=
                    { s with
                      mem := m4
                      activePage := pucNewPageAddr
                      nextAvailEntry := pucNewPageAddr + 2 + copied.length }
                  if s'.nextAvailEntry < pucNewPageAddr + cfg.pageWords then
                    (0, s')
                  else
                    (ERR_SWAP ||| ERR_AVAIL_ENTRY, s')

/-- SoftEEPROMWrite. -/
def SoftEEPROMWrite (fl : Flash) (cfg : Cfg) (s : EEState)
    (usID usData : Nat) : Nat × EEState :=
  if !s.initialized then (ERR_NOT_INIT, s)
  else if NUM_IDS ≤ usID then (ERR_ILLEGAL_ID, s)
  else
    let swapped :=
      if s.activePage + cfg.pageWords ≤ s.nextAvailEntry then
        PageSwap fl cfg s s.activePage
      else (0, s)
    if swapped.1 ≠ 0 then swapped
    else
      let s1 := swapped.2
      let ulEntry := usID % 65536 * 65536 + usData % 65536
      match PageDataWrite fl s1.mem s1.nextAvailEntry [ulEntry] with
      | none => (ERR_PG_WRITE, s1)
      | some m' =>
          (0, { s1 with mem := m', nextAvailEntry := s1.nextAvailEntry + 1 })

/-- SoftEEPROMRead: search the active page from the entry before
g_pucNextAvailEntry down to the page's first entry for the given id; the
result is (return code, found, data).  On the two error paths the C function
returns without writing *pbFound / *pusData; the found/data components are
meaningful only when the code is 0, where the C function first sets them to
(false, 0xFFFF) and overwrites them on a match. -/
def SoftEEPROMRead (cfg : Cfg) (s : EEState) (usID : Nat) :
    Nat × Bool × Nat :=
  if !s.initialized then (ERR_NOT_INIT, false, 0xFFFF)
  else if NUM_IDS - 1 < usID then (ERR_ILLEGAL_ID, false, 0xFFFF)
  else
    let addrs :=
      (List.range' (s.activePage + 2)
        (s.nextAvailEntry - (s.activePage + 2))).reverse
    match (addrs.map s.mem).find? (fun w => w / 65536 == usID) with
    | some w => (0, true, w % 65536)
    | none => (0, false, 0xFFFF)

/-- SoftEEPROMClear: mark the active page used, erase the next page, mark it
active with counter + 1, reset the globals to the new page. -/
def SoftEEPROMClear (fl : Flash) (cfg : Cfg) (s : EEState) : Nat × EEState :=
  if !s.initialized then (ERR_NOT_INIT, s)
  else
    match PageDataWrite fl s.mem (s.activePage + 1) [0] with
    | none => (ERR_PG_WRITE, s)
    | some m1 =>
        let pucNewPageAddr := nextPageAddr cfg s.activePage
        match PageErase fl cfg m1 pucNewPageAddr with
        | none => (ERR_PG_ERASE, { s with mem := m1 })
        | some m2 =>
            match PageDataWrite fl m2 pucNewPageAddr
                [(m2 s.activePage + 1) % 4294967296] with
            | none => (ERR_PG_WRITE, { s with mem := m2 })
            | some m3 =>
                (0, { s with
                      mem := m3
                      activePage := pucNewPageAddr
                      nextAvailEntry := pucNewPageAddr + 2 })

/-- First page marked active, scanning from the region start; the loop
pointer equals the region end when no page is active. -/
def findFirstActivePage (cfg : Cfg) (mem : Mem) : Nat :=
  match (List.range cfg.numPages).find?
      (fun i => PageIsActive mem (i * cfg.pageWords)) with
  | some i => i * cfg.pageWords
  | none => cfg.endAddr

/-- First page that is marked active and whose last entry is not erased
(the full-page search of the two-active-pages recovery branch). -/
def findFirstActiveFullPage (cfg : Cfg) (mem : Mem) : Option Nat :=
  match (List.range cfg.numPages).find?
      (fun i =>
        PageIsActive mem (i * cfg.pageWords) &&
        (mem (i * cfg.pageWords + cfg.pageWords - 1) != ERASED_WORD)) with
  | some i => some (i * cfg.pageWords)
  | none => none

/-- SoftEEPROMInit: the recovery state machine, dispatching on the number of
pages marked active.  ASSERT() parameter checks are compiled out in release
builds; the live check is the flash-range test against SysCtlFlashSizeGet. -/
def SoftEEPROMInit (fl : Flash) (cfg : Cfg) (s : EEState) : Nat × EEState :=
  if cfg.flashSize < cfg.endAddr then (ERR_RANGE, s)
  else
    let mem := s.mem
    let ucActivePgCnt := GetActivePageCount cfg mem
    if ucActivePgCnt = 0 then
      if GetUsedPageCount cfg mem = 0 then
        -- fresh start: erase page 0 and activate it with counter 0
        match PageErase fl cfg mem 0 with
        | none => (ERR_PG_ERASE, s)
        | some m1 =>
            match PageDataWrite fl m1 0 [0] with
            | none => (ERR_PG_WRITE, { s with mem := m1 })
            | some m2 => (0, ⟨m2, true, 0, 2⟩)
      else
        -- a reset interrupted a clear: activate the page after the most
        -- recently used one with its counter + 1
        let pucPageAddr := GetMostRecentlyUsedPage cfg mem
        let ulActiveStatusCnt := (mem pucPageAddr + 1) % 4294967296
        let pucNextAddr := nextPageAddr cfg pucPageAddr
        match PageErase fl cfg mem pucNextAddr with
        | none => (ERR_PG_ERASE, s)
        | some m1 =>
            match PageDataWrite fl m1 pucNextAddr [ulActiveStatusCnt] with
            | none => (ERR_PG_WRITE, { s with mem := m1 })
            | some m2 => (0, ⟨m2, true, pucNextAddr, pucNextAddr + 2⟩)
    else if ucActivePgCnt = 1 then
      let pucActivePg := findFirstActivePage cfg mem
      let pucPageAddr :=
        if pucActivePg = 0 then cfg.endAddr - cfg.pageWords
        else pucActivePg - cfg.pageWords
      if PageIsUsed mem pucPageAddr then
        if mem pucPageAddr = (mem pucActivePg + 4294967295) % 4294967296 then
          -- normal start
          (0, ⟨mem, true, pucActivePg, GetNextAvailEntry cfg mem pucActivePg⟩)
        else
          -- stale counter: erase the wrongly-marked active page and
          -- reactivate it with the used page's counter + 1
          match PageErase fl cfg mem pucActivePg with
          | none => (ERR_PG_ERASE, s)
          | some m1 =>
              let ulActiveStatusCnt := (m1 pucPageAddr + 1) % 4294967296
              match PageDataWrite fl m1 pucActivePg [ulActiveStatusCnt] with
              | none => (ERR_PG_WRITE, { s with mem := m1 })
              | some m2 => (0, ⟨m2, true, pucActivePg, pucActivePg + 2⟩)
      else
        -- page before the active one not yet used: normal start
        (0, ⟨mem, true, pucActivePg, GetNextAvailEntry cfg mem pucActivePg⟩)
    else if ucActivePgCnt = 2 then
      match findFirstActiveFullPage cfg mem with
      | some pucActivePg =>
          (0, ⟨mem, true, pucActivePg, pucActivePg + cfg.pageWords⟩)
      | none => (ERR_TWO_ACTIVE_NO_FULL, s)
    else
      (ERR_ACTIVE_PG_CNT, s)

/-- The body of the SoftEEPROM_WrapperWrite while loop, recursing on the
remaining byte count usSize.  Besides the C function's observable results
(return code and engine state) the model records, for the safety analysis of
the range check, the list of (id, data) arguments passed to
SoftEEPROMWrite.  The odd-address / single-byte branch first reads the
affected id (usData starts at 0xFFFF and keeps that value when the read
returns an error, since the C read leaves *pusData untouched on its error
paths), merges the byte, and rewrites the whole id. -/
def wrapWriteGo (fl : Flash) (cfg : Cfg) (s : EEState) (usAddress : Nat)
    (pucData : List Nat) (att : List (Nat × Nat)) :
    Nat → Nat × EEState × List (Nat × Nat)
  | 0 => (0, s, att)
  | 1 =>
      -- usSize == 1: the odd-address/last-byte branch
      let rd := SoftEEPROMRead cfg s (usAddress / 2)
      let usData := if rd.1 = 0 then rd.2.2 else 0xFFFF
      let usData' :=
        if usAddress % 2 = 1 then
          usData % 256 + pucData.headD 0 % 256 * 256
        else
          usData / 256 * 256 + pucData.headD 0 % 256
      let wr := SoftEEPROMWrite fl cfg s (usAddress / 2) usData'
      let att' := att ++ [(usAddress / 2, usData')]
      if wr.1 ≠ 0 then (wr.1, wr.2, att')
      else wrapWriteGo fl cfg wr.2 (usAddress + 1) pucData.tail att' 0
  | Nat.succ (Nat.succ m) =>
      if usAddress % 2 = 1 then
        let rd := SoftEEPROMRead cfg s (usAddress / 2)
        let usData := if rd.1 = 0 then rd.2.2 else 0xFFFF
        let usData' := usData % 256 + pucData.headD 0 % 256 * 256
        let wr := SoftEEPROMWrite fl cfg s (usAddress / 2) usData'
        let att' := att ++ [(usAddress / 2, usData')]
        if wr.1 ≠ 0 then (wr.1, wr.2, att')
        else wrapWriteGo fl cfg wr.2 (usAddress + 1) pucData.tail att' (m + 1)
      else
        let usData' := pucData.headD 0 % 256 + pucData.tail.headD 0 % 256 * 256
        let wr := SoftEEPROMWrite fl cfg s (usAddress / 2) usData'
        let att' := att ++ [(usAddress / 2, usData')]
        if wr.1 ≠ 0 then (wr.1, wr.2, att')
        else wrapWriteGo fl cfg wr.2 (usAddress + 2) pucData.tail.tail att' m

/-- SoftEEPROM_WrapperWrite: range check, then the byte-write loop.  The
result is (return code, engine state, list of underlying key writes
attempted). -/
def SoftEEPROM_WrapperWrite (fl : Flash) (cfg : Cfg) (s : EEState)
    (usAddress usSize : Nat) (pucData : List Nat) :
    Nat × EEState × List (Nat × Nat) :=
  if MAX_SOFTEEPROM_IDS < (usAddress + usSize) / 2 then (ERR_PAGE_RANGE, s, [])
  else wrapWriteGo fl cfg s usAddress pucData [] usSize

/-- The body of the SoftEEPROM_WrapperRead while loop.  The error check on
the underlying read is commented out in the source, so the loop always runs
to completion and the function returns the code of the last SoftEEPROMRead;
usData is written only by successful reads (it starts at 0 and keeps its
previous value when a read fails). -/
def wrapReadGo (cfg : Cfg) (s : EEState) (usAddress usData lReturn : Nat)
    (out : List Nat) : Nat → Nat × List Nat
  | 0 => (lReturn, out)
  | 1 =>
      let rd := SoftEEPROMRead cfg s (usAddress / 2)
      let d := if rd.1 = 0 then rd.2.2 else usData
      if usAddress % 2 = 1 then
        wrapReadGo cfg s (usAddress + 1) d rd.1 (out ++ [d / 256]) 0
      else
        wrapReadGo cfg s usAddress d rd.1 (out ++ [d % 256]) 0
  | Nat.succ (Nat.succ m) =>
      let rd := SoftEEPROMRead cfg s (usAddress / 2)
      let d := if rd.1 = 0 then rd.2.2 else usData
      if usAddress % 2 = 1 then
        wrapReadGo cfg s (usAddress + 1) d rd.1 (out ++ [d / 256]) (m + 1)
      else
        wrapReadGo cfg s (usAddress + 2) d rd.1 (out ++ [d % 256, d / 256]) m

/-- SoftEEPROM_WrapperRead: range check, then the byte-read loop; the result
is (return code, bytes read). -/
def SoftEEPROM_WrapperRead (cfg : Cfg) (s : EEState)
    (usAddress usSize : Nat) : Nat × List Nat :=
  if MAX_SOFTEEPROM_IDS < (usAddress + usSize) / 2 then (ERR_PAGE_RANGE, [])
  else wrapReadGo cfg s usAddress 0 0 [] usSize

/-! ### Elementary medium operations

For the invariant about intermediate medium states (the states at the
boundaries between the individual program/erase commands an engine
operation issues), each engine operation is also described as the list of
medium mutations it performs, in order.  The word-by-word granularity used
for data programming refines the C code's batched flushes: every state at a
batch boundary is also a state at a word boundary. -/

/-- One medium mutation: erasing a page or programming one word. -/
inductive MemOp where
  | erasePg : Nat → MemOp
  | prog : Nat → Nat → MemOp

/-- Apply one medium mutation (ideal device). -/
def applyOp (cfg : Cfg) (mem : Mem) : MemOp → Mem
  | .erasePg p => eraseRegion mem p cfg.pageWords
  | .prog a v => progWord mem a v

/-- Apply a list of medium mutations in order. -/
def applyOps (cfg : Cfg) (mem : Mem) (ops : List MemOp) : Mem :=
  ops.foldl (applyOp cfg) mem

/-- Program a list of words at consecutive addresses, as mutations. -/
def opsOfList (a : Nat) : List Nat → List MemOp
  | [] => []
  | w :: ws => .prog a w :: opsOfList (a + 1) ws

/-- The medium mutations performed by a successful PageSwap, in order:
erase the new page, program the copied entries, mark the new page active,
mark the full page used. -/
def PageSwapOps (cfg : Cfg) (s : EEState) (pucFullPageAddr : Nat) :
    List MemOp :=
  let pucNewPageAddr := nextPageAddr cfg pucFullPageAddr
  let m1 := eraseRegion s.mem pucNewPageAddr cfg.pageWords
  let copied := PageSwapCopied cfg m1 pucFullPageAddr
  let m2 := writeList m1 (pucNewPageAddr + 2) copied
  MemOp.erasePg pucNewPageAddr ::
    opsOfList (pucNewPageAddr + 2) copied ++
    [MemOp.prog pucNewPageAddr ((m2 pucFullPageAddr + 1) % 4294967296),
     MemOp.prog (pucFullPageAddr + 1) 0]

/-- The medium mutations performed by SoftEEPROMWrite on an initialized
state with a legal id (empty otherwise): the page swap when the active page
is full, then the entry program — which is skipped when the swap reports an
error (including the available-entry check that fails after the swap's
mutations have all been performed). -/
def SoftEEPROMWriteOps (cfg : Cfg) (s : EEState) (usID usData : Nat) :
    List MemOp :=
  if !s.initialized then []
  else if NUM_IDS ≤ usID then []
  else
    let ulEntry := usID % 65536 * 65536 + usData % 65536
    if s.activePage + cfg.pageWords ≤ s.nextAvailEntry then
      let ops := PageSwapOps cfg s s.activePage
      let swapped := PageSwap idealFlash cfg s s.activePage
      if swapped.1 ≠ 0 then ops
      else ops ++ [MemOp.prog swapped.2.nextAvailEntry ulEntry]
    else
      [MemOp.prog s.nextAvailEntry ulEntry]

/-- The medium mutations performed by a successful SoftEEPROMClear, in
order: mark the active page used, erase the next page, mark it active. -/
def SoftEEPROMClearOps (cfg : Cfg) (s : EEState) : List MemOp :=
  let pucNewPageAddr := nextPageAddr cfg s.activePage
  let m2 := eraseRegion (progWord s.mem (s.activePage + 1) 0) pucNewPageAddr
    cfg.pageWords
  [MemOp.prog (s.activePage + 1) 0,
   MemOp.erasePg pucNewPageAddr,
   MemOp.prog pucNewPageAddr ((m2 s.activePage + 1) % 4294967296)]

/-! ### Write sequences -/

/-- Run a sequence of writes, stopping at the first failure; the Bool
records whether every write returned 0. -/
def runWrites (fl : Flash) (cfg : Cfg) : EEState → List (Nat × Nat) →
    Bool × EEState
  | s, [] => (true, s)
  | s, (k, v) :: ws =>
      let r := SoftEEPROMWrite fl cfg s k v
      if r.1 = 0 then runWrites fl cfg r.2 ws else (false, r.2)

/-- The value of the most recent write to id k in a write sequence (listed
oldest first), if any. -/
def lastVal (k : Nat) : List (Nat × Nat) → Option Nat
  | [] => none
  | p :: ws =>
      match lastVal k ws with
      | some v => some v
      | none => if p.1 = k then some p.2 else none

/-- The engine state produced by a first SoftEEPROMInit on an all-erased
medium. -/
def freshState (fl : Flash) (cfg : Cfg) : EEState :=
  (SoftEEPROMInit fl cfg ⟨fun _ => ERASED_WORD, false, 0, 0⟩).2

/-! ### Concrete instances used to exercise the theorems -/

/-- A flash part whose program command reports success but leaves every
requested bit unchanged (all cells stuck). -/
def stuckFlash : Flash where
  program := fun mem _ _ => some mem
  eraseRange := fun mem p n => some (eraseRegion mem p n)

/-- Test configuration: two pages of six words (four entries per page). -/
def cfgA : Cfg := ⟨2, 6, 1000⟩

/-- Freshly initialized engine on cfgA. -/
def sFreshA : EEState := freshState idealFlash cfgA

/-- Test configuration: two pages of four words (two entries per page). -/
def cfgB : Cfg := ⟨2, 4, 1000⟩

/-- Medium left by a power loss during the first SoftEEPROMClear after a
fresh start: page 0 retired (both status words programmed, activity counter
still 0), page 1 untouched; no page is active. -/
def memClearCrash : Mem :=
  fun a => if a = 0 then 0 else if a = 1 then 0 else ERASED_WORD

/-- Medium with two active pages where page 0 is full: page 0 has counter 5
and a programmed last entry, page 1 has counter 6 and is empty (the state
left by a power loss between steps 3 and 4 of PageSwap). -/
def memTwoActiveFull : Mem :=
  fun a =>
    if a = 0 then 5 else if a = 3 then 77
    else if a = 4 then 6 else ERASED_WORD

/-- Medium with two active pages, neither full. -/
def memTwoActiveNoFull : Mem :=
  fun a => if a = 0 then 5 else if a = 4 then 6 else ERASED_WORD

/-- Pre-init engine state over a given medium. -/
def bootState (mem : Mem) : EEState := ⟨mem, false, 0, 0⟩

/-- Test configuration: two pages of five words (three entries per page). -/
def cfgC : Cfg := ⟨2, 5, 1000⟩

/-- A page-0 log holding id 1 twice (values 5 then 9) and id 2 once
(value 7), in write order. -/
def memLog : Mem :=
  fun a =>
    if a = 2 then 0x00010005 else if a = 3 then 0x00020007
    else if a = 4 then 0x00010009 else ERASED_WORD

/-- The entry words the read scan of SoftEEPROMRead visits, in address
(write) order: the active page's entries from the first one up to the one
before g_pucNextAvailEntry. -/
def scanVals (s : EEState) : List Nat :=
  (List.range' (s.activePage + 2)
    (s.nextAvailEntry - (s.activePage + 2))).map s.mem

/-- The engine's steady-state invariant, established by a fresh init and
maintained by every successful write: the engine is initialized, the active
page is one of the region's pages, the next available entry lies inside the
active page's entry area (or one past its end when the page is full), every
entry below it carries a valid id, and everything at or above it is still
erased. -/
structure Inv (cfg : Cfg) (s : EEState) : Prop where
  hinit : s.initialized = true
  hnp : 2 ≤ cfg.numPages
  hpw : 3 ≤ cfg.pageWords
  hap : ∃ i, i < cfg.numPages ∧ s.activePage = i * cfg.pageWords
  hlo : s.activePage + 2 ≤ s.nextAvailEntry
  hhi : s.nextAvailEntry ≤ s.activePage + cfg.pageWords
  hvalid : ∀ a, s.activePage + 2 ≤ a → a < s.nextAvailEntry →
    s.mem a / 65536 < NUM_IDS
  herased : ∀ a, s.nextAvailEntry ≤ a → a < s.activePage + cfg.pageWords →
    s.mem a = ERASED_WORD

/-! ## Theorems -/

/-- The read-back verification of PageDataWrite accepts every memory
contents: its loop guard compares ulByteCount with itself. -/
theorem pageDataWriteVerify_true (m' : Mem) (a : Nat) (d : List Nat)
    (i : Nat) : PageDataWriteVerify m' a d i = true := by
  unfold PageDataWriteVerify
  simp

/-- PageDataWrite reduces to the flash adapter's answer: the verification
step never rejects. -/
theorem pageDataWrite_eq (fl : Flash) (mem : Mem) (a : Nat) (d : List Nat) :
    PageDataWrite fl mem a d = fl.program mem a d := by
  unfold PageDataWrite
  cases fl.program mem a d with
  | none => rfl
  | some m' => simp [pageDataWriteVerify_true]

/-- On the ideal device PageDataWrite always succeeds with the requested
words written. -/
theorem pageDataWrite_ideal (mem : Mem) (a : Nat) (d : List Nat) :
    PageDataWrite idealFlash mem a d = some (writeList mem a d) :=
  pageDataWrite_eq idealFlash mem a d

/-- On the ideal device PageErase always succeeds with the page erased
(the status-word erase-verify passes as soon as the page has the two status
words). -/
theorem pageErase_ideal (cfg : Cfg) (mem : Mem) (p : Nat)
    (hpw : 2 ≤ cfg.pageWords) :
    PageErase idealFlash cfg mem p = some (eraseRegion mem p cfg.pageWords) := by
  unfold PageErase idealFlash
  simp only
  rw [if_pos]
  refine ⟨?_, ?_⟩ <;> simp [eraseRegion] <;> omega

/-- Claim C3: the claim states that every program operation is verified by
reading the programmed words back, a mismatch yielding the program-verify
failure error.  The code contradicts its own documentation: the verify loop
in PageDataWrite (softeeprom.c line 326) uses ulByteCount both as counter
and bound, so it runs zero times; here a flash part that reports success
while programming nothing is accepted: PageDataWrite returns success even
though the word read back (0xFFFFFFFF) differs from the word written (5). -/
theorem c3_program_verify_never_runs :
    PageDataWrite stuckFlash (fun _ => ERASED_WORD) 2 [5] =
      some (fun _ => ERASED_WORD) ∧
    (fun _ => ERASED_WORD : Mem) 2 ≠ 5 := by
  refine ⟨?_, by decide⟩
  rw [pageDataWrite_eq]
  rfl

/-- Claim C5: the claim states that from a medium with zero active pages
and at least one used page, init finds the used page with the highest
generation and activates its successor.  In the reachable crash-during-clear
state where the retired page carries generation 0 (the medium after a fresh
start, then a clear interrupted between retiring page 0 and activating page
1), GetMostRecentlyUsedPage compares each used page's counter strictly
against a running maximum initialized to 0, so the generation-0 used page is
never selected and the no-used-page sentinel 0xFFFFFFFF — far outside the
EEPROM region — is returned; SoftEEPROMInit then reads the new generation
through that wild pointer instead of adopting page 0's generation. -/
theorem c5_mru_misses_generation_zero :
    GetActivePageCount cfgB memClearCrash = 0 ∧
    GetUsedPageCount cfgB memClearCrash = 1 ∧
    PageIsUsed memClearCrash 0 = true ∧
    GetMostRecentlyUsedPage cfgB memClearCrash = MRU_NONE ∧
    cfgB.endAddr ≤ MRU_NONE := by
  decide

/-- Claim C10: the claim states that during PageSwap every slot word either
fails the copy guard or indexes the ucIDSwapped bit vector inside its
NUM_VECTOR_BYTES bytes, and in particular that an erased slot (id 0xFFFF)
never produces an out-of-bounds access.  The code contradicts its own
comments (the ids are treated as 8-bit, erased entries as 0xFF): an erased
word has id 0xFFFF, the guard's exclusion test 0xFF does not catch it, and
the byte index 0xFFFF / 8 = 8191 lies far beyond the 16-byte vector — the
bit-vector read itself happens before the 0xFF test. -/
theorem c10_erased_id_indexes_out_of_bounds :
    ERASED_WORD / 65536 % 65536 = 0xFFFF ∧
    swapGuard (fun _ => false) 0xFFFF = true ∧
    NUM_VECTOR_BYTES = 16 ∧
    ¬ vecByteIndex 0xFFFF < NUM_VECTOR_BYTES := by
  decide

/-- Claim C7: writing any id outside 0 .. NUM_IDS-1 on an initialized engine
returns ERR_ILLEGAL_ID and changes nothing: the returned state is the input
state and the operation issues no program or erase command. -/
theorem c7_illegal_id_rejected_atomically (fl : Flash) (cfg : Cfg)
    (s : EEState) (usID usData : Nat) (hinit : s.initialized = true)
    (hid : MAX_SOFTEEPROM_IDS ≤ usID) :
    SoftEEPROMWrite fl cfg s usID usData = (ERR_ILLEGAL_ID, s) ∧
    SoftEEPROMWriteOps cfg s usID usData = [] := by
  have hid' : NUM_IDS ≤ usID := hid
  constructor
  · unfold SoftEEPROMWrite
    rw [hinit]
    simp [hid']
  · unfold SoftEEPROMWriteOps
    rw [hinit]
    simp [hid']

/-- Witness for C7: on a freshly initialized engine, writing id 127
(= maxKeys) and id 0xFFFF (the id carried by the erased pattern) are both
rejected without any state change. -/
theorem c7_witness :
    SoftEEPROMWrite idealFlash cfgA sFreshA 127 5 = (ERR_ILLEGAL_ID, sFreshA) ∧
    SoftEEPROMWrite idealFlash cfgA sFreshA 0xFFFF 5 =
      (ERR_ILLEGAL_ID, sFreshA) :=
  ⟨(c7_illegal_id_rejected_atomically idealFlash cfgA sFreshA 127 5
      (by decide) (by decide)).1,
   (c7_illegal_id_rejected_atomically idealFlash cfgA sFreshA 0xFFFF 5
      (by decide) (by decide)).1⟩

/-- Counterexample for C8: the claim states that a second call to init after
a successful init is rejected with an error.  On the state produced by a
successful first init, SoftEEPROMInit returns 0 again: there is no
re-entrancy check. -/
theorem c8_counterexample_reinit_succeeds :
    sFreshA.initialized = true ∧
    (SoftEEPROMInit idealFlash cfgA sFreshA).1 = 0 := by
  decide

/-- Claim C8 (amended): SoftEEPROMInit never consults the initialized flag,
so a second call is not rejected — it re-runs the recovery state machine and
returns whatever a first call on the same medium would return; and every
call to SoftEEPROMWrite, SoftEEPROMRead, or SoftEEPROMClear before a
successful init returns ERR_NOT_INIT and leaves the state unchanged. -/
theorem c8_amended_no_reinit_guard :
    (∀ (fl : Flash) (cfg : Cfg) (s : EEState),
      (SoftEEPROMInit fl cfg s).1 =
        (SoftEEPROMInit fl cfg ⟨s.mem, false, s.activePage,
          s.nextAvailEntry⟩).1) ∧
    (∀ (fl : Flash) (cfg : Cfg) (s : EEState) (usID usData : Nat),
      s.initialized = false →
        SoftEEPROMWrite fl cfg s usID usData = (ERR_NOT_INIT, s) ∧
        (SoftEEPROMRead cfg s usID).1 = ERR_NOT_INIT ∧
        SoftEEPROMClear fl cfg s = (ERR_NOT_INIT, s)) := by
  constructor
  · intro fl cfg s
    obtain ⟨mem, b, ap, na⟩ := s
    unfold SoftEEPROMInit
    simp only
    split_ifs <;> try rfl
    all_goals (repeat' split <;> try rfl)
  · intro fl cfg s usID usData hinit
    refine ⟨?_, ?_, ?_⟩
    · unfold SoftEEPROMWrite
      rw [hinit]
      rfl
    · unfold SoftEEPROMRead
      rw [hinit]
      rfl
    · unfold SoftEEPROMClear
      rw [hinit]
      rfl

/-- Witness for the amended C8: a second init on the freshly initialized
cfgA engine returns the same code that a first call on that medium returns,
and a write before init is rejected with ERR_NOT_INIT. -/
theorem c8_amended_witness :
    (SoftEEPROMInit idealFlash cfgA sFreshA).1 =
      (SoftEEPROMInit idealFlash cfgA
        ⟨sFreshA.mem, false, sFreshA.activePage, sFreshA.nextAvailEntry⟩).1 ∧
    SoftEEPROMWrite idealFlash cfgA (bootState memClearCrash) 1 2 =
      (ERR_NOT_INIT, bootState memClearCrash) :=
  ⟨c8_amended_no_reinit_guard.1 idealFlash cfgA sFreshA,
   (c8_amended_no_reinit_guard.2 idealFlash cfgA (bootState memClearCrash) 1 2
      (by decide)).1⟩

/-- Claim C6: on a medium with exactly two active pages, SoftEEPROMInit
adopts the first active page whose last entry is not erased (a full page) as
the active page, with the next available entry set one past the page's end;
it returns ERR_TWO_ACTIVE_NO_FULL, leaving the state untouched (in
particular not initialized), exactly when no active page is full. -/
theorem c6_two_active_recovery (fl : Flash) (cfg : Cfg) (s : EEState)
    (hrange : cfg.endAddr ≤ cfg.flashSize)
    (hA : GetActivePageCount cfg s.mem = 2) :
    (∀ q, findFirstActiveFullPage cfg s.mem = some q →
      SoftEEPROMInit fl cfg s = (0, ⟨s.mem, true, q, q + cfg.pageWords⟩) ∧
      PageIsActive s.mem q = true ∧
      s.mem (q + cfg.pageWords - 1) ≠ ERASED_WORD) ∧
    (findFirstActiveFullPage cfg s.mem = none ↔
      ∀ i, i < cfg.numPages → PageIsActive s.mem (i * cfg.pageWords) = true →
        s.mem (i * cfg.pageWords + cfg.pageWords - 1) = ERASED_WORD) ∧
    (findFirstActiveFullPage cfg s.mem = none →
      SoftEEPROMInit fl cfg s = (ERR_TWO_ACTIVE_NO_FULL, s)) := by
  have hred : SoftEEPROMInit fl cfg s =
      match findFirstActiveFullPage cfg s.mem with
      | some q => (0, ⟨s.mem, true, q, q + cfg.pageWords⟩)
      | none => (ERR_TWO_ACTIVE_NO_FULL, s) := by
    unfold SoftEEPROMInit
    simp only [hA]
    rw [if_neg (by omega)]
    norm_num
  refine ⟨?_, ?_, ?_⟩
  · intro q hq
    refine ⟨by rw [hred, hq], ?_, ?_⟩ <;>
    · unfold findFirstActiveFullPage at hq
      rcases hfind : (List.range cfg.numPages).find? (fun i =>
          PageIsActive s.mem (i * cfg.pageWords) &&
          (s.mem (i * cfg.pageWords + cfg.pageWords - 1) != ERASED_WORD)) with
        _ | i
      · rw [hfind] at hq
        exact absurd hq (by simp)
      · rw [hfind] at hq
        have hp := List.find?_some hfind
        simp only [Bool.and_eq_true, bne_iff_ne, ne_eq] at hp
        simp only [Option.some.injEq] at hq
        subst hq
        first
          | exact hp.1
          | exact hp.2
  · unfold findFirstActiveFullPage
    rcases hfind : (List.range cfg.numPages).find? (fun i =>
        PageIsActive s.mem (i * cfg.pageWords) &&
        (s.mem (i * cfg.pageWords + cfg.pageWords - 1) != ERASED_WORD)) with
      _ | i
    · rw [List.find?_eq_none] at hfind
      refine iff_of_true rfl ?_
      intro i hi hact
      have h1 := hfind i (List.mem_range.mpr hi)
      simp only [Bool.and_eq_true, bne_iff_ne, ne_eq, not_and] at h1
      by_contra hne
      exact h1 hact hne
    · simp only [reduceCtorEq, false_iff]
      push_neg
      have hp := List.find?_some hfind
      have hmem := List.mem_range.mp (List.mem_of_find?_eq_some hfind)
      simp only [Bool.and_eq_true, bne_iff_ne, ne_eq] at hp
      exact ⟨i, hmem, hp.1, hp.2⟩
  · intro hq
    rw [hred, hq]

/-- Witness for C6: on the crash-mid-swap medium memTwoActiveFull (two
active pages, page 0 full), init adopts page 0 with the next available entry
one past its end; on memTwoActiveNoFull (two active pages, none full) it
fails with ERR_TWO_ACTIVE_NO_FULL and does not adopt. -/
theorem c6_witness :
    SoftEEPROMInit idealFlash cfgB (bootState memTwoActiveFull) =
      (0, ⟨memTwoActiveFull, true, 0, 0 + cfgB.pageWords⟩) ∧
    SoftEEPROMInit idealFlash cfgB (bootState memTwoActiveNoFull) =
      (ERR_TWO_ACTIVE_NO_FULL, bootState memTwoActiveNoFull) :=
  ⟨((c6_two_active_recovery idealFlash cfgB (bootState memTwoActiveFull)
      (by decide) (by decide)).1 0 (by decide)).1,
   (c6_two_active_recovery idealFlash cfgB (bootState memTwoActiveNoFull)
      (by decide) (by decide)).2.2 (by decide)⟩


theorem softWrite_code_ne_pageRange (cfg : Cfg) (s : EEState)
    (usID usData : Nat) :
    (SoftEEPROMWrite idealFlash cfg s usID usData).1 ≠ ERR_PAGE_RANGE := by
  unfold SoftEEPROMWrite PageSwap
  simp only
  repeat' split
  all_goals simp [ERR_NOT_INIT, ERR_ILLEGAL_ID, ERR_PAGE_RANGE, ERR_SWAP,
    ERR_PG_ERASE, ERR_PG_WRITE, ERR_AVAIL_ENTRY]

theorem softRead_code_ne_pageRange (cfg : Cfg) (s : EEState) (usID : Nat) :
    (SoftEEPROMRead cfg s usID).1 ≠ ERR_PAGE_RANGE := by
  unfold SoftEEPROMRead
  repeat' split
  all_goals try simp [ERR_NOT_INIT, ERR_ILLEGAL_ID, ERR_PAGE_RANGE]
  all_goals
    rcases List.find? (fun w => w / 65536 == usID)
        ((List.map s.mem (List.range' (s.activePage + 2)
          (s.nextAvailEntry - (s.activePage + 2)))).reverse) with _ | w <;>
      simp [ERR_PAGE_RANGE]

theorem wrapWriteGo_code_ne_pageRange (cfg : Cfg) :
    ∀ n (s : EEState) (a : Nat) (d : List Nat) (att : List (Nat × Nat)),
      (wrapWriteGo idealFlash cfg s a d att n).1 ≠ ERR_PAGE_RANGE := by
  intro n
  induction n using Nat.strong_induction_on with
  | _ n ih =>
    intro s a d att
    match n with
    | 0 => simp [wrapWriteGo, ERR_PAGE_RANGE]
    | 1 =>
      simp only [wrapWriteGo]
      repeat' split
      all_goals first
        | exact softWrite_code_ne_pageRange _ _ _ _
        | exact ih 0 (by omega) s a d att
    | Nat.succ (Nat.succ m) =>
      simp only [wrapWriteGo]
      repeat' split
      all_goals first
        | exact softWrite_code_ne_pageRange _ _ _ _
        | apply ih (m + 1) (by omega)
        | apply ih m (by omega)

theorem wrapReadGo_code_ne_pageRange (cfg : Cfg) :
    ∀ n (s : EEState) (a usData lReturn : Nat) (out : List Nat),
      lReturn ≠ ERR_PAGE_RANGE →
      (wrapReadGo cfg s a usData lReturn out n).1 ≠ ERR_PAGE_RANGE := by
  intro n
  induction n using Nat.strong_induction_on with
  | _ n ih =>
    intro s a usData lReturn out hl
    match n with
    | 0 => simpa [wrapReadGo] using hl
    | 1 =>
      simp only [wrapReadGo]
      repeat' split
      all_goals
        exact ih 0 (by omega) s a 0 (SoftEEPROMRead cfg s (a / 2)).1 []
          (softRead_code_ne_pageRange cfg s (a / 2))
    | Nat.succ (Nat.succ m) =>
      simp only [wrapReadGo]
      repeat' split
      all_goals first
        | (apply ih (m + 1) (by omega)
           exact softRead_code_ne_pageRange _ _ _)
        | (apply ih m (by omega)
           exact softRead_code_ne_pageRange _ _ _)

/-- Claim C9 (amended): the wrappers reject a request with the RangeError
code exactly when (byteAddr + length) / 2 > maxKeys, attempting no
underlying key write when rejecting; requests that pass the check — which
include the out-of-range requests with byteAddr + length = 2*maxKeys + 1,
whose last byte maps to key maxKeys — never return the RangeError code (the
underlying write of key maxKeys fails with IllegalKey instead). -/
theorem c9_amended_range_check (cfg : Cfg) (s : EEState) (a n : Nat)
    (d : List Nat) :
    (MAX_SOFTEEPROM_IDS < (a + n) / 2 →
      SoftEEPROM_WrapperWrite idealFlash cfg s a n d =
        (ERR_PAGE_RANGE, s, []) ∧
      SoftEEPROM_WrapperRead cfg s a n = (ERR_PAGE_RANGE, [])) ∧
    ((a + n) / 2 ≤ MAX_SOFTEEPROM_IDS →
      (SoftEEPROM_WrapperWrite idealFlash cfg s a n d).1 ≠ ERR_PAGE_RANGE ∧
      (SoftEEPROM_WrapperRead cfg s a n).1 ≠ ERR_PAGE_RANGE) := by
  constructor
  · intro h
    unfold SoftEEPROM_WrapperWrite SoftEEPROM_WrapperRead
    rw [if_pos h, if_pos h]
    exact ⟨rfl, rfl⟩
  · intro h
    unfold SoftEEPROM_WrapperWrite SoftEEPROM_WrapperRead
    rw [if_neg (by omega), if_neg (by omega)]
    exact ⟨wrapWriteGo_code_ne_pageRange cfg n s a d [],
      wrapReadGo_code_ne_pageRange cfg n s a 0 0 [] (by decide)⟩

/-- Counterexample for C9: byte address 254 maps to key 254 / 2 = 127 =
maxKeys, outside 0 .. maxKeys-1, yet writeBytes(254, 1) passes the range
check ((254 + 1) / 2 = 127 is not > 127): instead of returning RangeError
before any write, the wrapper attempts the underlying write of key 127 and
returns IllegalKey; readBytes(254, 1) likewise returns IllegalKey. -/
theorem c9_counterexample_odd_boundary :
    254 / 2 = MAX_SOFTEEPROM_IDS ∧
    (SoftEEPROM_WrapperWrite idealFlash cfgA sFreshA 254 1 [7]).1 =
      ERR_ILLEGAL_ID ∧
    (SoftEEPROM_WrapperWrite idealFlash cfgA sFreshA 254 1 [7]).1 ≠
      ERR_PAGE_RANGE ∧
    (SoftEEPROM_WrapperWrite idealFlash cfgA sFreshA 254 1 [7]).2.2 =
      [(127, 65287)] ∧
    (SoftEEPROM_WrapperRead cfgA sFreshA 254 1).1 = ERR_ILLEGAL_ID := by
  decide

/-- Witness for the amended C9: a clearly out-of-range request is rejected
with the RangeError code and no attempted write, and an in-range request
does not return the RangeError code. -/
theorem c9_amended_witness :
    SoftEEPROM_WrapperWrite idealFlash cfgA sFreshA 300 2 [1, 2] =
      (ERR_PAGE_RANGE, sFreshA, []) ∧
    (SoftEEPROM_WrapperRead cfgA sFreshA 0 4).1 ≠ ERR_PAGE_RANGE :=
  ⟨((c9_amended_range_check cfgA sFreshA 300 2 [1, 2]).1 (by decide)).1,
   ((c9_amended_range_check cfgA sFreshA 0 4 [1, 2]).2 (by decide)).2⟩


theorem swapScan_subset (seen : Nat → Bool) (l : List Nat) :
    ∀ w ∈ swapScan seen l, w ∈ l := by
  induction l generalizing seen with
  | nil => simp [swapScan]
  | cons x rest ih =>
    intro w hw
    unfold swapScan at hw
    by_cases hg : swapGuard seen (x / 65536 % 65536)
    · rw [if_pos hg] at hw
      rcases List.mem_cons.mp hw with h | h
      · exact h ▸ List.mem_cons_self x rest
      · exact List.mem_cons_of_mem x (ih _ w h)
    · rw [if_neg hg] at hw
      exact List.mem_cons_of_mem x (ih seen w hw)

theorem find?_eq_head?_filter (p : Nat → Bool) (l : List Nat) :
    l.find? p = (l.filter p).head? := by
  induction l with
  | nil => rfl
  | cons x rest ih =>
    by_cases hp : p x
    · simp [List.find?_cons, hp, List.filter_cons, ih]
    · simp only [List.find?_cons, List.filter_cons]
      rw [if_neg (by simp [hp]), ih]
      simp [hp]

theorem swapScan_filter (k : Nat) (hk' : k ≠ 0xFF) :
    ∀ (l : List Nat) (seen : Nat → Bool),
      (swapScan seen l).filter (fun w => w / 65536 % 65536 == k) =
        if seen k then []
        else (l.filter (fun w => w / 65536 % 65536 == k)).take 1 := by
  intro l
  induction l with
  | nil =>
    intro seen
    by_cases h : seen k <;> simp [swapScan, h]
  | cons x rest ih =>
    intro seen
    unfold swapScan
    by_cases hx : x / 65536 % 65536 = k
    · by_cases hs : seen k
      · have hg : ¬ swapGuard seen (x / 65536 % 65536) = true := by
          simp [swapGuard, hx, hs]
        rw [if_neg hg, ih seen, if_pos hs, if_pos hs]
      · have hg : swapGuard seen (x / 65536 % 65536) = true := by
          simp [swapGuard, hx, hs, hk']
        rw [if_pos hg, List.filter_cons, if_pos (by simp [hx]), ih]
        have hseen' : (if k = x / 65536 % 65536 then true else seen k) = true := by
          rw [if_pos hx.symm]
        rw [hseen', if_neg hs, List.filter_cons]
        simp [hx]
    · by_cases hg : swapGuard seen (x / 65536 % 65536) = true
      · rw [if_pos hg, List.filter_cons, if_neg (by simp [hx]), ih]
        have h2 : (if k = x / 65536 % 65536 then true else seen k) = seen k :=
          if_neg (fun h => hx h.symm)
        rw [h2]
        by_cases hs : seen k
        · rw [if_pos hs, if_pos hs]
        · rw [if_neg hs, if_neg hs, List.filter_cons, if_neg (by simp [hx])]
      · rw [if_neg hg, ih]
        by_cases hs : seen k
        · rw [if_pos hs, if_pos hs]
        · rw [if_neg hs, if_neg hs, List.filter_cons, if_neg (by simp [hx])]

/-- Claim C4, amended: for a full page whose slots all carry valid ids
(below NUM_IDS — the only contents the engine's API can have written, ids
being checked at the write boundary), the entry words PageSwap programs
into the new page contain, for every id k, exactly the last-written (closest to the
page end) slot holding k when k occurs in the page and nothing otherwise;
every programmed word is a raw word of the source page; and no programmed
word carries the guard's reserved id 0xFF or the erased-pattern id 0xFFFF.
(For a slot with an id outside NUM_IDS — e.g. an erased slot — the C guard
itself reads out of bounds; see the C10 theorem.) -/
theorem c4_swap_copies_latest_per_id (cfg : Cfg) (mem : Mem) (p : Nat)
    (hids : ∀ w ∈ pageEntries cfg mem p, w / 65536 < NUM_IDS) :
    (∀ k, k < NUM_IDS →
      (PageSwapCopied cfg mem p).filter (fun w => w / 65536 % 65536 == k) =
        ((pageEntries cfg mem p).reverse.find?
          (fun w => w / 65536 % 65536 == k)).toList) ∧
    (∀ w ∈ PageSwapCopied cfg mem p, w ∈ pageEntries cfg mem p) ∧
    (∀ w ∈ PageSwapCopied cfg mem p,
      w / 65536 % 65536 ≠ 0xFF ∧ w / 65536 % 65536 ≠ 0xFFFF) := by
  have hsub : ∀ w ∈ PageSwapCopied cfg mem p, w ∈ pageEntries cfg mem p := by
    intro w hw
    exact List.mem_reverse.mp
      (swapScan_subset (fun _ => false) (pageEntries cfg mem p).reverse w hw)
  refine ⟨?_, hsub, ?_⟩
  · intro k hk
    have hk' : k ≠ 0xFF := by
      have : NUM_IDS = 127 := rfl
      omega
    rw [PageSwapCopied, swapScan_filter k hk' (pageEntries cfg mem p).reverse
      (fun _ => false)]
    simp only [Bool.false_eq_true, if_false]
    rw [find?_eq_head?_filter, List.take_one]
  · intro w hw
    have hid := hids w (hsub w hw)
    have : w / 65536 % 65536 = w / 65536 := Nat.mod_eq_of_lt (by
      have : NUM_IDS = 127 := rfl
      omega)
    rw [this]
    have : NUM_IDS = 127 := rfl
    omega

/-- Witness for C4: on the three-entry log memLog (id 1 written twice, id 2
once), the copied sequence keeps exactly the last-written word for id 1. -/
theorem c4_witness :
    (PageSwapCopied cfgC memLog 0).filter (fun w => w / 65536 % 65536 == 1) =
      ((pageEntries cfgC memLog 0).reverse.find?
        (fun w => w / 65536 % 65536 == 1)).toList ∧
    (PageSwapCopied cfgC memLog 0).filter (fun w => w / 65536 % 65536 == 3) =
      ((pageEntries cfgC memLog 0).reverse.find?
        (fun w => w / 65536 % 65536 == 3)).toList :=
  ⟨(c4_swap_copies_latest_per_id cfgC memLog 0 (by decide)).1 1 (by decide),
   (c4_swap_copies_latest_per_id cfgC memLog 0 (by decide)).1 3 (by decide)⟩

/-- Claim C4: the claim quantifies over every full-page content and asserts
that PageSwap writes no slot whose key equals the reserved/erased key.
Refuted: on the two-entry-per-page configuration, page 0 of
memTwoActiveFull is full (its last slot holds 77, not the erased pattern)
but its first entry slot is erased (raw word 0xFFFFFFFF, entry id 0xFFFF);
the copy guard passes that id — in the C code the guard's bit-vector access
ucIDSwapped[0xFFFF / 8] is out of bounds before the != 0xFF test even runs,
see the C10 theorem — so the erased slot is carried into the write buffer
that PageSwap programs into the new page. -/
theorem c4_counterexample_erased_slot_copied :
    memTwoActiveFull (0 + cfgB.pageWords - 1) ≠ ERASED_WORD ∧
    ERASED_WORD / 65536 % 65536 = 0xFFFF ∧
    ERASED_WORD ∈
      PageSwapCopied cfgB
        (eraseRegion memTwoActiveFull (nextPageAddr cfgB 0) cfgB.pageWords)
        0 := by
  decide


@[simp]
theorem NUM_IDS_eq : NUM_IDS = 127 := rfl

theorem progWord_ne (mem : Mem) (a v x : Nat) (h : x ≠ a) :
    progWord mem a v x = mem x := by
  simp [progWord, h]

theorem progWord_self (mem : Mem) (a v : Nat) : progWord mem a v a = v := by
  simp [progWord]

theorem writeList_out_lt (l : List Nat) :
    ∀ (mem : Mem) (a x : Nat), x < a → writeList mem a l x = mem x := by
  induction l with
  | nil => intro mem a x _; rfl
  | cons w ws ih =>
    intro mem a x hx
    unfold writeList
    rw [ih _ _ _ (by omega), progWord_ne _ _ _ _ (by omega)]

theorem writeList_out_ge (l : List Nat) :
    ∀ (mem : Mem) (a x : Nat), a + l.length ≤ x → writeList mem a l x = mem x := by
  induction l with
  | nil => intro mem a x _; rfl
  | cons w ws ih =>
    intro mem a x hx
    unfold writeList
    rw [ih _ _ _ (by simp at hx ⊢; omega),
      progWord_ne _ _ _ _ (by simp at hx; omega)]

theorem writeList_getD (l : List Nat) :
    ∀ (mem : Mem) (a i : Nat), i < l.length →
      writeList mem a l (a + i) = l.getD i 0 := by
  induction l with
  | nil => intro _ _ _ h; simp at h
  | cons w ws ih =>
    intro mem a i hi
    unfold writeList
    match i with
    | 0 =>
      rw [writeList_out_lt _ _ _ _ (by omega)]
      simp [progWord]
    | Nat.succ j =>
      have : a + (j + 1) = (a + 1) + j := by omega
      rw [this, ih _ _ _ (by simp at hi; omega)]
      rfl

theorem map_writeList_range' (l : List Nat) :
    ∀ (mem : Mem) (a : Nat),
      (List.range' a l.length).map (writeList mem a l) = l := by
  induction l with
  | nil => intro _ _; rfl
  | cons w ws ih =>
    intro mem a
    rw [List.length_cons, List.range'_succ, List.map_cons]
    unfold writeList
    rw [writeList_out_lt _ _ _ _ (by omega), progWord_self, ih]

theorem eraseRegion_in (mem : Mem) (p n x : Nat) (h : p ≤ x ∧ x < p + n) :
    eraseRegion mem p n x = ERASED_WORD := by
  simp [eraseRegion, h]

theorem eraseRegion_out (mem : Mem) (p n x : Nat)
    (h : ¬(p ≤ x ∧ x < p + n)) : eraseRegion mem p n x = mem x := by
  simp only [eraseRegion, if_neg h]

theorem addr_div_mod (W i k : Nat) (hW : 0 < W) (hk : k < W) :
    (i * W + k) / W = i ∧ (i * W + k) % W = k := by
  constructor
  · rw [Nat.mul_comm, Nat.mul_add_div hW, Nat.div_eq_of_lt hk, Nat.add_zero]
  · rw [Nat.mul_comm, Nat.mul_add_mod, Nat.mod_eq_of_lt hk]

theorem page_region_out (W i j k : Nat) (hW : 0 < W) (hk : k < W)
    (hij : i ≠ j) : ¬(j * W ≤ i * W + k ∧ i * W + k < j * W + W) := by
  rintro ⟨h1, h2⟩
  apply hij
  have hdiv := (addr_div_mod W i k hW hk).1
  have h3 : (i * W + k) / W = j :=
    Nat.div_eq_of_lt_le h1 (by rw [Nat.succ_mul]; exact h2)
  omega

theorem page_addr_inj (W i j k k' : Nat) (hW : 0 < W) (hk : k < W)
    (hk' : k' < W) (h : i * W + k = j * W + k') : i = j ∧ k = k' := by
  have h1 := (addr_div_mod W i k hW hk).1
  have h2 := (addr_div_mod W j k' hW hk').1
  have h3 := (addr_div_mod W i k hW hk).2
  have h4 := (addr_div_mod W j k' hW hk').2
  rw [h] at h1 h3
  omega

theorem nextPage_spec (cfg : Cfg) (i : Nat) (hi : i < cfg.numPages)
    (hnp : 2 ≤ cfg.numPages) (hW : 0 < cfg.pageWords) :
    ∃ j, j < cfg.numPages ∧
      nextPageAddr cfg (i * cfg.pageWords) = j * cfg.pageWords ∧ j ≠ i := by
  unfold nextPageAddr Cfg.endAddr
  by_cases h : i * cfg.pageWords + cfg.pageWords < cfg.numPages * cfg.pageWords
  · refine ⟨i + 1, ?_, ?_, by omega⟩
    · by_contra hcon
      have : cfg.numPages * cfg.pageWords ≤ (i + 1) * cfg.pageWords :=
        Nat.mul_le_mul_right _ (by omega)
      rw [Nat.succ_mul] at this
      omega
    · rw [if_pos h, Nat.succ_mul]
  · refine ⟨0, by omega, ?_, ?_⟩
    · rw [if_neg h, Nat.zero_mul]
    · intro hcon
      subst hcon
      rw [Nat.zero_mul, Nat.zero_add] at h
      have : 2 * cfg.pageWords ≤ cfg.numPages * cfg.pageWords :=
        Nat.mul_le_mul_right _ hnp
      omega

theorem find?_congr_mem {p q : Nat → Bool} :
    ∀ l : List Nat, (∀ x ∈ l, p x = q x) → l.find? p = l.find? q := by
  intro l
  induction l with
  | nil => intro _; rfl
  | cons x rest ih =>
    intro h
    rw [List.find?_cons, List.find?_cons, h x (List.mem_cons_self x rest),
      ih fun y hy => h y (List.mem_cons_of_mem x hy)]

theorem filter_reverse' (p : Nat → Bool) :
    ∀ l : List Nat, l.reverse.filter p = (l.filter p).reverse := by
  intro l
  induction l with
  | nil => rfl
  | cons x rest ih =>
    rw [List.reverse_cons, List.filter_append, ih]
    by_cases hp : p x <;> simp [List.filter_cons, hp]


theorem entry_div (usID usData : Nat) (hid : usID < 65536) :
    (usID % 65536 * 65536 + usData % 65536) / 65536 = usID := by
  omega

theorem entry_mod (usID usData : Nat) :
    (usID % 65536 * 65536 + usData % 65536) % 65536 = usData % 65536 := by
  omega

theorem read_core (cfg : Cfg) (s : EEState) (usID : Nat)
    (hinit : s.initialized = true) (hid : usID < NUM_IDS) :
    SoftEEPROMRead cfg s usID =
      match (scanVals s).reverse.find? (fun w => w / 65536 == usID) with
      | some w => (0, true, w % 65536)
      | none => (0, false, 0xFFFF) := by
  unfold SoftEEPROMRead scanVals
  rw [if_neg (by simp [hinit])]
  rw [if_neg (by simp only [NUM_IDS_eq] at hid ⊢; omega)]
  simp only [List.map_reverse]

theorem scanVals_snoc (s1 : EEState) (b : Bool) (e : Nat)
    (hlo : s1.activePage + 2 ≤ s1.nextAvailEntry) :
    scanVals ⟨progWord s1.mem s1.nextAvailEntry e, b, s1.activePage,
      s1.nextAvailEntry + 1⟩ = scanVals s1 ++ [e] := by
  unfold scanVals
  simp only
  have h1 : s1.nextAvailEntry + 1 - (s1.activePage + 2) =
      (s1.nextAvailEntry - (s1.activePage + 2)) + 1 := by omega
  rw [h1, List.range'_concat, List.map_append]
  have h2 : s1.activePage + 2 + 1 * (s1.nextAvailEntry - (s1.activePage + 2)) =
      s1.nextAvailEntry := by omega
  rw [h2]
  congr 1
  · apply List.map_congr_left
    intro a ha
    rw [List.mem_range'_1] at ha
    exact progWord_ne _ _ _ _ (by omega)
  · rw [List.map_cons, List.map_nil, progWord_self]

theorem append_Inv (cfg : Cfg) (s1 : EEState) (usID usData : Nat)
    (hInv : Inv cfg s1) (hid : usID < NUM_IDS)
    (hroom : s1.nextAvailEntry < s1.activePage + cfg.pageWords) :
    Inv cfg ⟨progWord s1.mem s1.nextAvailEntry
        (usID % 65536 * 65536 + usData % 65536), s1.initialized,
      s1.activePage, s1.nextAvailEntry + 1⟩ := by
  obtain ⟨hinit, hnp, hpw, hap, hlo, hhi, hvalid, herased⟩ := hInv
  refine ⟨hinit, hnp, hpw, hap, by simp only; omega, by simp only; omega,
    ?_, ?_⟩
  · intro a h1 h2
    simp only at h1 h2 ⊢
    by_cases ha : a = s1.nextAvailEntry
    · subst ha
      rw [progWord_self, entry_div usID usData
        (by simp only [NUM_IDS_eq] at hid; omega)]
      exact hid
    · rw [progWord_ne _ _ _ _ ha]
      exact hvalid a h1 (by omega)
  · intro a h1 h2
    simp only at h1 h2 ⊢
    rw [progWord_ne _ _ _ _ (by omega)]
    exact herased a (by omega) h2

theorem write_noswap_eq (cfg : Cfg) (s : EEState) (usID usData : Nat)
    (hinit : s.initialized = true) (hid : usID < NUM_IDS)
    (hroom : ¬ s.activePage + cfg.pageWords ≤ s.nextAvailEntry) :
    SoftEEPROMWrite idealFlash cfg s usID usData =
      (0, ⟨progWord s.mem s.nextAvailEntry
          (usID % 65536 * 65536 + usData % 65536), s.initialized,
        s.activePage, s.nextAvailEntry + 1⟩) := by
  unfold SoftEEPROMWrite
  rw [if_neg (by simp [hinit])]
  rw [if_neg (by simp only [NUM_IDS_eq] at hid ⊢; omega)]
  simp only [if_neg hroom, ne_eq, not_true_eq_false, if_neg,
    pageDataWrite_ideal]
  rw [if_neg (by simp)]
  rfl

theorem write_swap_eq (cfg : Cfg) (s : EEState) (usID usData : Nat)
    (hinit : s.initialized = true) (hid : usID < NUM_IDS)
    (hfull : s.activePage + cfg.pageWords ≤ s.nextAvailEntry)
    (hswapok : (PageSwap idealFlash cfg s s.activePage).1 = 0) :
    SoftEEPROMWrite idealFlash cfg s usID usData =
      (0, ⟨progWord (PageSwap idealFlash cfg s s.activePage).2.mem
          (PageSwap idealFlash cfg s s.activePage).2.nextAvailEntry
          (usID % 65536 * 65536 + usData % 65536),
        (PageSwap idealFlash cfg s s.activePage).2.initialized,
        (PageSwap idealFlash cfg s s.activePage).2.activePage,
        (PageSwap idealFlash cfg s s.activePage).2.nextAvailEntry + 1⟩) := by
  unfold SoftEEPROMWrite
  rw [if_neg (by simp [hinit])]
  rw [if_neg (by simp only [NUM_IDS_eq] at hid ⊢; omega)]
  simp only [if_pos hfull]
  rw [if_neg (by simp [hswapok])]
  rw [pageDataWrite_ideal]
  rfl


theorem swapScan_length_le (l : List Nat) :
    ∀ seen, (swapScan seen l).length ≤ l.length := by
  induction l with
  | nil => intro _; simp [swapScan]
  | cons x rest ih =>
    intro seen
    unfold swapScan
    by_cases hg : swapGuard seen (x / 65536 % 65536) = true
    · rw [if_pos hg]
      simpa using ih _
    · rw [if_neg hg]
      simp only [List.length_cons]
      exact Nat.le_succ_of_le (ih seen)

theorem pageEntries_length (cfg : Cfg) (mem : Mem) (p : Nat) :
    (pageEntries cfg mem p).length = cfg.pageWords - 2 := by
  simp [pageEntries]

theorem pageEntries_mem (cfg : Cfg) (mem : Mem) (p w : Nat)
    (h : w ∈ pageEntries cfg mem p) :
    ∃ i, i < cfg.pageWords - 2 ∧ w = mem (p + 2 + i) := by
  unfold pageEntries at h
  rw [List.mem_map] at h
  obtain ⟨i, hi, hw⟩ := h
  exact ⟨i, List.mem_range.mp hi, hw.symm⟩

theorem head?_take1_reverse (l : List Nat) :
    ((l.take 1).reverse).head? = l.head? := by
  cases l <;> simp

theorem eraseRegion_outside_page (mem : Mem) (W : Nat) (hW : 0 < W)
    (i j : Nat) (hij : i ≠ j) (k : Nat) (hk : k < W) :
    eraseRegion mem (j * W) W (i * W + k) = mem (i * W + k) :=
  eraseRegion_out _ _ _ _ (page_region_out W i j k hW hk hij)

theorem swapScan_find_pres (E : List Nat) (j : Nat) (hj : j < 127)
    (hbound : ∀ w ∈ E, w / 65536 < 127) :
    (swapScan (fun _ => false) E.reverse).reverse.find?
        (fun w => w / 65536 == j) =
      E.reverse.find? (fun w => w / 65536 == j) := by
  have hboundRev : ∀ w ∈ E.reverse, w / 65536 < 127 := fun w hw =>
    hbound w (List.mem_reverse.mp hw)
  have hboundC : ∀ w ∈ swapScan (fun _ => false) E.reverse,
      w / 65536 < 127 := fun w hw =>
    hboundRev w (swapScan_subset _ _ w hw)
  have hcongrC : ∀ w ∈ (swapScan (fun _ => false) E.reverse).reverse,
      (w / 65536 == j) = (w / 65536 % 65536 == j) := by
    intro w hw
    have := hboundC w (List.mem_reverse.mp hw)
    rw [Nat.mod_eq_of_lt (by omega)]
  have hcongrE : ∀ w ∈ E.reverse,
      (w / 65536 == j) = (w / 65536 % 65536 == j) := by
    intro w hw
    have := hboundRev w hw
    rw [Nat.mod_eq_of_lt (by omega)]
  rw [find?_congr_mem _ hcongrC, find?_congr_mem _ hcongrE,
    find?_eq_head?_filter, find?_eq_head?_filter, filter_reverse',
    swapScan_filter j (by omega) E.reverse (fun _ => false)]
  simp only [Bool.false_eq_true, if_false]
  rw [head?_take1_reverse]

theorem pageSwap_ideal_parts (cfg : Cfg) (s : EEState)
    (hpw : 2 ≤ cfg.pageWords) :
    (PageSwap idealFlash cfg s s.activePage).2 =
      ⟨progWord
        (progWord
          (writeList
            (eraseRegion s.mem (nextPageAddr cfg s.activePage) cfg.pageWords)
            (nextPageAddr cfg s.activePage + 2)
            (PageSwapCopied cfg
              (eraseRegion s.mem (nextPageAddr cfg s.activePage) cfg.pageWords)
              s.activePage))
          (nextPageAddr cfg s.activePage)
          ((writeList
              (eraseRegion s.mem (nextPageAddr cfg s.activePage) cfg.pageWords)
              (nextPageAddr cfg s.activePage + 2)
              (PageSwapCopied cfg
                (eraseRegion s.mem (nextPageAddr cfg s.activePage)
                  cfg.pageWords)
                s.activePage) s.activePage + 1) % 4294967296))
        (s.activePage + 1) 0,
       s.initialized, nextPageAddr cfg s.activePage,
       nextPageAddr cfg s.activePage + 2 +
         (PageSwapCopied cfg
           (eraseRegion s.mem (nextPageAddr cfg s.activePage) cfg.pageWords)
           s.activePage).length⟩ ∧
    ((PageSwap idealFlash cfg s s.activePage).1 = 0 ↔
      nextPageAddr cfg s.activePage + 2 +
        (PageSwapCopied cfg
          (eraseRegion s.mem (nextPageAddr cfg s.activePage) cfg.pageWords)
          s.activePage).length <
        nextPageAddr cfg s.activePage + cfg.pageWords) := by
  unfold PageSwap
  have hpe : ∀ p, PageErase idealFlash cfg s.mem p =
      some (eraseRegion s.mem p cfg.pageWords) := fun p =>
    pageErase_ideal cfg s.mem p hpw
  simp only [hpe, pageDataWrite_ideal]
  constructor
  · split <;> rfl
  · split <;> rename_i h
    · simp [h]
    · constructor
      · intro habs
        simp [ERR_SWAP, ERR_AVAIL_ENTRY] at habs
      · intro hc
        exact absurd hc h


theorem map_range'_pointwise {f : Nat → Nat} {b n : Nat} {l : List Nat}
    (h : (List.range' b n).map f = l) (a : Nat) (hba : b ≤ a)
    (han : a < b + n) : f a = l.getD (a - b) 0 := by
  have hlen : l.length = n := by rw [← h]; simp
  have hi : a - b < n := by omega
  have h1 : f (b + (a - b)) = l.getD (a - b) 0 := by
    rw [← h, List.getD_eq_getElem _ _ (by simp [hi]), List.getElem_map,
      List.getElem_range']
    simp
  have h2 : b + (a - b) = a := by omega
  rw [h2] at h1
  exact h1

theorem getD_mem (l : List Nat) (i : Nat) (hi : i < l.length) :
    l.getD i 0 ∈ l := by
  rw [List.getD_eq_getElem _ _ hi]
  exact List.getElem_mem hi

theorem swap_state_facts (cfg : Cfg) (mem m1 m2 m3 m4 : Mem)
    (copied : List Nat) (g : Nat) (apIdx npIdx : Nat)
    (hpw : 3 ≤ cfg.pageWords) (hne : npIdx ≠ apIdx)
    (hm1 : m1 = eraseRegion mem (npIdx * cfg.pageWords) cfg.pageWords)
    (hcopied : copied = PageSwapCopied cfg m1 (apIdx * cfg.pageWords))
    (hm2 : m2 = writeList m1 (npIdx * cfg.pageWords + 2) copied)
    (hm3 : m3 = progWord m2 (npIdx * cfg.pageWords) g)
    (hm4 : m4 = progWord m3 (apIdx * cfg.pageWords + 1) 0)
    (hvalid : ∀ a, apIdx * cfg.pageWords + 2 ≤ a →
      a < apIdx * cfg.pageWords + cfg.pageWords → mem a / 65536 < NUM_IDS) :
    copied.length ≤ cfg.pageWords - 2 ∧
    (List.range' (npIdx * cfg.pageWords + 2) copied.length).map m4 = copied ∧
    (∀ a, npIdx * cfg.pageWords + 2 + copied.length ≤ a →
      a < npIdx * cfg.pageWords + cfg.pageWords → m4 a = ERASED_WORD) ∧
    (∀ w ∈ copied, w / 65536 < NUM_IDS) ∧
    (∀ j, j < NUM_IDS →
      copied.reverse.find? (fun w => w / 65536 == j) =
        (pageEntries cfg mem (apIdx * cfg.pageWords)).reverse.find?
          (fun w => w / 65536 == j)) := by
  have hW : 0 < cfg.pageWords := by omega
  have hE : pageEntries cfg m1 (apIdx * cfg.pageWords) =
      pageEntries cfg mem (apIdx * cfg.pageWords) := by
    unfold pageEntries
    apply List.map_congr_left
    intro i hi
    rw [List.mem_range] at hi
    have haddr : apIdx * cfg.pageWords + 2 + i =
        apIdx * cfg.pageWords + (2 + i) := by omega
    rw [haddr, hm1]
    exact eraseRegion_outside_page mem cfg.pageWords hW apIdx npIdx
      (fun h => hne h.symm) (2 + i) (by omega)
  have hboundE : ∀ w ∈ pageEntries cfg mem (apIdx * cfg.pageWords),
      w / 65536 < NUM_IDS := by
    intro w hw
    obtain ⟨i, hi, hwi⟩ := pageEntries_mem cfg mem _ w hw
    rw [hwi]
    exact hvalid _ (by omega) (by omega)
  have hlen : copied.length ≤ cfg.pageWords - 2 := by
    rw [hcopied, PageSwapCopied]
    calc (swapScan (fun _ => false)
            (pageEntries cfg m1 (apIdx * cfg.pageWords)).reverse).length
        ≤ (pageEntries cfg m1 (apIdx * cfg.pageWords)).reverse.length :=
          swapScan_length_le _ _
      _ = cfg.pageWords - 2 := by rw [List.length_reverse, pageEntries_length]
  have hsub : ∀ w ∈ copied, w ∈ pageEntries cfg mem (apIdx * cfg.pageWords) := by
    intro w hw
    rw [hcopied, PageSwapCopied, hE] at hw
    exact List.mem_reverse.mp (swapScan_subset _ _ w hw)
  have hboundC : ∀ w ∈ copied, w / 65536 < NUM_IDS := fun w hw =>
    hboundE w (hsub w hw)
  refine ⟨hlen, ?_, ?_, hboundC, ?_⟩
  · -- the copied entries are what the read scan of the new page sees
    have hcongr : (List.range' (npIdx * cfg.pageWords + 2)
        copied.length).map m4 =
        (List.range' (npIdx * cfg.pageWords + 2) copied.length).map m2 := by
      apply List.map_congr_left
      intro a ha
      rw [List.mem_range'_1] at ha
      have hk : 2 ≤ a - npIdx * cfg.pageWords ∧
          a - npIdx * cfg.pageWords < cfg.pageWords := by omega
      have hne1 : a ≠ apIdx * cfg.pageWords + 1 := by
        intro heq
        have ha' : a = npIdx * cfg.pageWords + (a - npIdx * cfg.pageWords) := by
          omega
        rw [ha'] at heq
        have := page_addr_inj cfg.pageWords npIdx apIdx
          (a - npIdx * cfg.pageWords) 1 hW hk.2 (by omega) heq
        omega
      have hne2 : a ≠ npIdx * cfg.pageWords := by omega
      rw [hm4, hm3, progWord_ne _ _ _ _ hne1, progWord_ne _ _ _ _ hne2]
    rw [hcongr, hm2, map_writeList_range']
  · intro a h1 h2
    have hk : 2 ≤ a - npIdx * cfg.pageWords ∧
        a - npIdx * cfg.pageWords < cfg.pageWords := by omega
    have hne1 : a ≠ apIdx * cfg.pageWords + 1 := by
      intro heq
      have ha' : a = npIdx * cfg.pageWords + (a - npIdx * cfg.pageWords) := by
        omega
      rw [ha'] at heq
      have := page_addr_inj cfg.pageWords npIdx apIdx
        (a - npIdx * cfg.pageWords) 1 hW hk.2 (by omega) heq
      omega
    have hne2 : a ≠ npIdx * cfg.pageWords := by omega
    rw [hm4, hm3, progWord_ne _ _ _ _ hne1, progWord_ne _ _ _ _ hne2, hm2,
      writeList_out_ge _ _ _ _ (by omega), hm1,
      eraseRegion_in _ _ _ _ ⟨by omega, by omega⟩]
  · intro j hj
    rw [hcopied, PageSwapCopied, hE]
    exact swapScan_find_pres _ j (by simp only [NUM_IDS_eq] at hj; omega)
      (by simpa only [NUM_IDS_eq] using hboundE)


theorem scanVals_full (cfg : Cfg) (s : EEState)
    (hfull : s.nextAvailEntry = s.activePage + cfg.pageWords)
    (hpw : 2 ≤ cfg.pageWords) :
    scanVals s = pageEntries cfg s.mem s.activePage := by
  unfold scanVals pageEntries
  rw [hfull]
  have h1 : s.activePage + cfg.pageWords - (s.activePage + 2) =
      cfg.pageWords - 2 := by omega
  rw [h1, List.range'_eq_map_range, List.map_map]
  apply List.map_congr_left
  intro i _
  simp [Nat.add_assoc]

theorem pageSwap_success_spec (cfg : Cfg) (s : EEState) (hInv : Inv cfg s)
    (hfull : s.activePage + cfg.pageWords ≤ s.nextAvailEntry)
    (h0 : (PageSwap idealFlash cfg s s.activePage).1 = 0) :
    Inv cfg (PageSwap idealFlash cfg s s.activePage).2 ∧
    (PageSwap idealFlash cfg s s.activePage).2.nextAvailEntry <
      (PageSwap idealFlash cfg s s.activePage).2.activePage + cfg.pageWords ∧
    ∀ j, j < NUM_IDS →
      (scanVals (PageSwap idealFlash cfg s s.activePage).2).reverse.find?
          (fun w => w / 65536 == j) =
        (scanVals s).reverse.find? (fun w => w / 65536 == j) := by
  obtain ⟨hinit, hnp, hpw, hap, hlo, hhi, hvalid, herased⟩ := hInv
  obtain ⟨apIdx, hapIdx, hapEq⟩ := hap
  have hW : 0 < cfg.pageWords := by omega
  have hnext : s.nextAvailEntry = s.activePage + cfg.pageWords :=
    le_antisymm hhi hfull
  obtain ⟨npIdx, hnpIdx, hnpEq0, hneIdx⟩ := nextPage_spec cfg apIdx hapIdx hnp hW
  have hnpEq : nextPageAddr cfg s.activePage = npIdx * cfg.pageWords := by
    rw [hapEq]
    exact hnpEq0
  obtain ⟨hr2, hr1⟩ := pageSwap_ideal_parts cfg s (by omega)
  rw [hnpEq] at hr1 hr2
  rw [hapEq] at hr1 hr2 h0 ⊢
  obtain ⟨hlen, hmap, herasedN, hboundC, hfind⟩ :=
    swap_state_facts cfg s.mem
      (eraseRegion s.mem (npIdx * cfg.pageWords) cfg.pageWords)
      (writeList (eraseRegion s.mem (npIdx * cfg.pageWords) cfg.pageWords)
        (npIdx * cfg.pageWords + 2)
        (PageSwapCopied cfg
          (eraseRegion s.mem (npIdx * cfg.pageWords) cfg.pageWords)
          (apIdx * cfg.pageWords)))
      _ _
      (PageSwapCopied cfg
        (eraseRegion s.mem (npIdx * cfg.pageWords) cfg.pageWords)
        (apIdx * cfg.pageWords))
      ((writeList (eraseRegion s.mem (npIdx * cfg.pageWords) cfg.pageWords)
          (npIdx * cfg.pageWords + 2)
          (PageSwapCopied cfg
            (eraseRegion s.mem (npIdx * cfg.pageWords) cfg.pageWords)
            (apIdx * cfg.pageWords)) (apIdx * cfg.pageWords) + 1) % 4294967296)
      apIdx npIdx hpw hneIdx rfl rfl rfl rfl rfl
      (by
        intro a h1 h2
        rw [← hapEq] at h1 h2
        exact hvalid a h1 (by omega))
  have hcond := hr1.mp h0
  have hscan : scanVals (PageSwap idealFlash cfg s (apIdx * cfg.pageWords)).2 =
      PageSwapCopied cfg
        (eraseRegion s.mem (npIdx * cfg.pageWords) cfg.pageWords)
        (apIdx * cfg.pageWords) := by
    unfold scanVals
    rw [hr2]
    simp only
    have h' : npIdx * cfg.pageWords + 2 +
        (PageSwapCopied cfg
          (eraseRegion s.mem (npIdx * cfg.pageWords) cfg.pageWords)
          (apIdx * cfg.pageWords)).length - (npIdx * cfg.pageWords + 2) =
        (PageSwapCopied cfg
          (eraseRegion s.mem (npIdx * cfg.pageWords) cfg.pageWords)
          (apIdx * cfg.pageWords)).length := by omega
    rw [h']
    exact hmap
  refine ⟨⟨?_, hnp, hpw, ?_, ?_, ?_, ?_, ?_⟩, ?_, ?_⟩
  · rw [hr2]
    exact hinit
  · exact ⟨npIdx, hnpIdx, by rw [hr2]⟩
  · rw [hr2]
    simp only
    omega
  · rw [hr2]
    simp only
    omega
  · intro a h1 h2
    rw [hr2] at h1 h2 ⊢
    simp only at h1 h2 ⊢
    have := map_range'_pointwise hmap a (by omega) (by omega)
    rw [this]
    exact hboundC _ (getD_mem _ _ (by omega))
  · intro a h1 h2
    rw [hr2] at h1 h2 ⊢
    simp only at h1 h2 ⊢
    exact herasedN a h1 h2
  · rw [hr2]
    simp only
    omega
  · intro j hj
    rw [hscan, hfind j hj, scanVals_full cfg s hnext (by omega), hapEq]


theorem read_append (cfg : Cfg) (s1 : EEState) (e j : Nat)
    (hinit : s1.initialized = true) (hj : j < NUM_IDS)
    (hlo : s1.activePage + 2 ≤ s1.nextAvailEntry) :
    SoftEEPROMRead cfg ⟨progWord s1.mem s1.nextAvailEntry e, s1.initialized,
        s1.activePage, s1.nextAvailEntry + 1⟩ j =
      if e / 65536 = j then (0, true, e % 65536)
      else
        match (scanVals s1).reverse.find? (fun w => w / 65536 == j) with
        | some w => (0, true, w % 65536)
        | none => (0, false, 0xFFFF) := by
  rw [read_core cfg ⟨progWord s1.mem s1.nextAvailEntry e, s1.initialized,
      s1.activePage, s1.nextAvailEntry + 1⟩ j hinit hj,
    scanVals_snoc s1 s1.initialized e hlo, List.reverse_append]
  simp only [List.reverse_cons, List.reverse_nil, List.nil_append,
    List.singleton_append, List.find?_cons]
  by_cases he : e / 65536 = j
  · have hbe : (e / 65536 == j) = true := by simp [he]
    rw [hbe, if_pos he]
  · have hbe : (e / 65536 == j) = false := by simp [he]
    rw [hbe, if_neg he]

theorem write_spec (cfg : Cfg) (s : EEState) (usID usData : Nat)
    (hInv : Inv cfg s)
    (hsucc : (SoftEEPROMWrite idealFlash cfg s usID usData).1 = 0) :
    Inv cfg (SoftEEPROMWrite idealFlash cfg s usID usData).2 ∧
    ∀ j, j < NUM_IDS →
      SoftEEPROMRead cfg (SoftEEPROMWrite idealFlash cfg s usID usData).2 j =
        if j = usID then (0, true, usData % 65536)
        else SoftEEPROMRead cfg s j := by
  have hid : usID < NUM_IDS := by
    by_contra hcon
    have heq : SoftEEPROMWrite idealFlash cfg s usID usData =
        (ERR_ILLEGAL_ID, s) := by
      unfold SoftEEPROMWrite
      rw [if_neg (by simp [hInv.hinit]), if_pos (by omega)]
    rw [heq] at hsucc
    simp [ERR_ILLEGAL_ID] at hsucc
  have hid16 : usID < 65536 := by
    simp only [NUM_IDS_eq] at hid
    omega
  have hediv : (usID % 65536 * 65536 + usData % 65536) / 65536 = usID :=
    entry_div usID usData hid16
  by_cases hfull : s.activePage + cfg.pageWords ≤ s.nextAvailEntry
  · have hswap0 : (PageSwap idealFlash cfg s s.activePage).1 = 0 := by
      by_contra hcon
      have heq : SoftEEPROMWrite idealFlash cfg s usID usData =
          PageSwap idealFlash cfg s s.activePage := by
        unfold SoftEEPROMWrite
        rw [if_neg (by simp [hInv.hinit])]
        rw [if_neg (by simp only [NUM_IDS_eq] at hid ⊢; omega)]
        simp only [if_pos hfull]
        rw [if_pos hcon]
      rw [heq] at hsucc
      exact hcon hsucc
    obtain ⟨hInv1, hroom1, hfind1⟩ :=
      pageSwap_success_spec cfg s hInv hfull hswap0
    rw [write_swap_eq cfg s usID usData hInv.hinit hid hfull hswap0]
    set r := (PageSwap idealFlash cfg s s.activePage).2 with hr
    constructor
    · exact append_Inv cfg r usID usData hInv1 hid hroom1
    · intro j hj
      show SoftEEPROMRead cfg ⟨progWord r.mem r.nextAvailEntry
          (usID % 65536 * 65536 + usData % 65536), r.initialized,
          r.activePage, r.nextAvailEntry + 1⟩ j = _
      rw [read_append cfg r _ j hInv1.hinit hj hInv1.hlo]
      by_cases hj' : j = usID
      · rw [if_pos (by rw [hediv, hj']), if_pos hj', entry_mod]
      · rw [if_neg (by rw [hediv]; exact fun h => hj' h.symm), if_neg hj',
          hfind1 j hj, read_core cfg s j hInv.hinit hj]
  · rw [write_noswap_eq cfg s usID usData hInv.hinit hid hfull]
    constructor
    · exact append_Inv cfg s usID usData hInv hid (by omega)
    · intro j hj
      show SoftEEPROMRead cfg ⟨progWord s.mem s.nextAvailEntry
          (usID % 65536 * 65536 + usData % 65536), s.initialized,
          s.activePage, s.nextAvailEntry + 1⟩ j = _
      rw [read_append cfg s _ j hInv.hinit hj hInv.hlo]
      by_cases hj' : j = usID
      · rw [if_pos (by rw [hediv, hj']), if_pos hj', entry_mod]
      · rw [if_neg (by rw [hediv]; exact fun h => hj' h.symm), if_neg hj',
          read_core cfg s j hInv.hinit hj]


theorem freshState_eq (cfg : Cfg) (hF : cfg.endAddr ≤ cfg.flashSize)
    (hpw : 2 ≤ cfg.pageWords) :
    freshState idealFlash cfg =
      ⟨progWord (eraseRegion (fun _ => ERASED_WORD) 0 cfg.pageWords) 0 0,
        true, 0, 2⟩ := by
  unfold freshState SoftEEPROMInit
  have hA : GetActivePageCount cfg (fun _ => ERASED_WORD) = 0 := by
    apply List.countP_eq_zero.mpr
    intro i _
    simp [PageIsActive]
  have hU : GetUsedPageCount cfg (fun _ => ERASED_WORD) = 0 := by
    apply List.countP_eq_zero.mpr
    intro i _
    simp [PageIsUsed]
  have hpe := pageErase_ideal cfg (fun _ => ERASED_WORD) 0 hpw
  rw [if_neg (by omega)]
  simp only [hA, hU, hpe, pageDataWrite_ideal, if_pos rfl]
  rfl

theorem Inv_fresh (cfg : Cfg) (hnp : 2 ≤ cfg.numPages)
    (hpw : 3 ≤ cfg.pageWords) (hF : cfg.endAddr ≤ cfg.flashSize) :
    Inv cfg (freshState idealFlash cfg) := by
  rw [freshState_eq cfg hF (by omega)]
  refine ⟨rfl, hnp, hpw, ⟨0, by omega, ?_⟩, ?_, ?_, ?_, ?_⟩
  · show (0 : Nat) = 0 * cfg.pageWords
    rw [Nat.zero_mul]
  · show 0 + 2 ≤ 2
    omega
  · show 2 ≤ 0 + cfg.pageWords
    omega
  · intro a h1 h2
    have h1' : 0 + 2 ≤ a := h1
    have h2' : a < 2 := h2
    omega
  · intro a h1 h2
    have h1' : 2 ≤ a := h1
    have h2' : a < 0 + cfg.pageWords := h2
    show progWord (eraseRegion (fun _ => ERASED_WORD) 0 cfg.pageWords) 0 0 a =
      ERASED_WORD
    rw [progWord_ne _ _ _ _ (by omega),
      eraseRegion_in _ _ _ _ ⟨by omega, by omega⟩]

theorem read_fresh (cfg : Cfg) (j : Nat) (hj : j < NUM_IDS)
    (hF : cfg.endAddr ≤ cfg.flashSize) (hpw : 2 ≤ cfg.pageWords) :
    SoftEEPROMRead cfg (freshState idealFlash cfg) j = (0, false, 0xFFFF) := by
  rw [freshState_eq cfg hF hpw, read_core cfg _ j rfl hj]
  unfold scanVals
  simp

theorem lastVal_mem (k : Nat) :
    ∀ (ws : List (Nat × Nat)) (v : Nat), lastVal k ws = some v →
      (k, v) ∈ ws := by
  intro ws
  induction ws with
  | nil => intro v h; simp [lastVal] at h
  | cons p rest ih =>
    intro v h
    unfold lastVal at h
    cases hlv : lastVal k rest with
    | some v' =>
      rw [hlv] at h
      simp only [Option.some.injEq] at h
      subst h
      exact List.mem_cons_of_mem p (ih v' hlv)
    | none =>
      rw [hlv] at h
      by_cases hp : p.1 = k
      · rw [if_pos hp] at h
        simp only [Option.some.injEq] at h
        have : p = (k, v) := by
          obtain ⟨p1, p2⟩ := p
          simp only at hp h
          rw [hp, h]
        rw [← this]
        exact List.mem_cons_self p rest
      · rw [if_neg hp] at h
        exact absurd h (by simp)

theorem runWrites_spec (cfg : Cfg) :
    ∀ (ws : List (Nat × Nat)) (s : EEState), Inv cfg s →
      (runWrites idealFlash cfg s ws).1 = true →
      Inv cfg (runWrites idealFlash cfg s ws).2 ∧
      ∀ j, j < NUM_IDS →
        SoftEEPROMRead cfg (runWrites idealFlash cfg s ws).2 j =
          match lastVal j ws with
          | some v => (0, true, v % 65536)
          | none => SoftEEPROMRead cfg s j := by
  intro ws
  induction ws with
  | nil =>
    intro s hInv _
    exact ⟨hInv, fun j hj => rfl⟩
  | cons kv rest ih =>
    intro s hInv hrun
    obtain ⟨k, v⟩ := kv
    unfold runWrites at hrun ⊢
    by_cases hc : (SoftEEPROMWrite idealFlash cfg s k v).1 = 0
    · rw [if_pos hc] at hrun ⊢
      obtain ⟨hInv1, hread1⟩ := write_spec cfg s k v hInv hc
      obtain ⟨hInv2, hread2⟩ :=
        ih (SoftEEPROMWrite idealFlash cfg s k v).2 hInv1 hrun
      refine ⟨hInv2, ?_⟩
      intro j hj
      rw [hread2 j hj]
      have hcons : lastVal j ((k, v) :: rest) =
          match lastVal j rest with
          | some v' => some v'
          | none => if k = j then some v else none := rfl
      rw [hcons]
      cases hlv : lastVal j rest with
      | some v' => rfl
      | none =>
        rw [hread1 j hj]
        by_cases hjk : j = k
        · rw [if_pos hjk, if_pos hjk.symm]
        · rw [if_neg hjk, if_neg (fun h => hjk h.symm)]
    · rw [if_neg hc] at hrun
      simp at hrun

/-- Claim C1: starting from a freshly initialized engine, after any sequence
of writes that all succeed (valid ids, 16-bit data, compactions included),
reading a valid id returns found = true with the value of the most recent
write to that id, and found = false for an id never written — round-trip,
last-write-wins, and interleaving-independence in one statement. -/
theorem c1_round_trip_last_write_wins (P W F : Nat) (hP : 2 ≤ P)
    (hW : 3 ≤ W) (hF : P * W ≤ F) (ws : List (Nat × Nat))
    (hws : ∀ kv ∈ ws, kv.1 < NUM_IDS ∧ kv.2 < 65536)
    (hrun : (runWrites idealFlash ⟨P, W, F⟩
      (freshState idealFlash ⟨P, W, F⟩) ws).1 = true)
    (k : Nat) (hk : k < NUM_IDS) :
    SoftEEPROMRead ⟨P, W, F⟩
        (runWrites idealFlash ⟨P, W, F⟩
          (freshState idealFlash ⟨P, W, F⟩) ws).2 k =
      match lastVal k ws with
      | some v => (0, true, v)
      | none => (0, false, 0xFFFF) := by
  have hF' : Cfg.endAddr ⟨P, W, F⟩ ≤ F := hF
  have hInv0 := Inv_fresh ⟨P, W, F⟩ hP hW hF'
  obtain ⟨_, hread⟩ := runWrites_spec ⟨P, W, F⟩ ws _ hInv0 hrun
  rw [hread k hk]
  cases hlv : lastVal k ws with
  | some v =>
    have hv : v < 65536 := (hws (k, v) (lastVal_mem k ws v hlv)).2
    show ((0, true, v % 65536) : Nat × Bool × Nat) = (0, true, v)
    rw [Nat.mod_eq_of_lt hv]
  | none =>
    show SoftEEPROMRead ⟨P, W, F⟩ (freshState idealFlash ⟨P, W, F⟩) k =
      ((0, false, 0xFFFF) : Nat × Bool × Nat)
    rw [read_fresh ⟨P, W, F⟩ k hk hF' (show (2 : Nat) ≤ W by omega)]

/-- Witness for C1: five writes alternating between ids 1 and 2 on a
four-entry page — the fifth write triggers a compaction — after which id 1
reads its last value 50, id 2 reads 40, and never-written id 0 is not
found. -/
theorem c1_witness :
    SoftEEPROMRead cfgA (runWrites idealFlash cfgA sFreshA
        [(1, 10), (2, 20), (1, 30), (2, 40), (1, 50)]).2 1 = (0, true, 50) ∧
    SoftEEPROMRead cfgA (runWrites idealFlash cfgA sFreshA
        [(1, 10), (2, 20), (1, 30), (2, 40), (1, 50)]).2 2 = (0, true, 40) ∧
    SoftEEPROMRead cfgA (runWrites idealFlash cfgA sFreshA
        [(1, 10), (2, 20), (1, 30), (2, 40), (1, 50)]).2 0 =
      (0, false, 0xFFFF) :=
  ⟨c1_round_trip_last_write_wins 2 6 1000 (by decide) (by decide) (by decide)
      [(1, 10), (2, 20), (1, 30), (2, 40), (1, 50)] (by decide) (by decide)
      1 (by decide),
   c1_round_trip_last_write_wins 2 6 1000 (by decide) (by decide) (by decide)
      [(1, 10), (2, 20), (1, 30), (2, 40), (1, 50)] (by decide) (by decide)
      2 (by decide),
   c1_round_trip_last_write_wins 2 6 1000 (by decide) (by decide) (by decide)
      [(1, 10), (2, 20), (1, 30), (2, 40), (1, 50)] (by decide) (by decide)
      0 (by decide)⟩


theorem countP_range_succ (p : Nat → Bool) (n : Nat) :
    (List.range (n + 1)).countP p =
      (List.range n).countP p + if p n then 1 else 0 := by
  rw [List.range_succ, List.countP_append, List.countP_cons]
  simp

theorem countP_range_eq_one {p : Nat → Bool} {n a : Nat} (ha : a < n)
    (hpa : p a = true) (ho : ∀ i, i < n → i ≠ a → p i = false) :
    (List.range n).countP p = 1 := by
  induction n with
  | zero => omega
  | succ m ih =>
    rw [countP_range_succ]
    by_cases ham : a = m
    · subst ham
      rw [List.countP_eq_zero.mpr fun i hi => by
        rw [ho i (by simp at hi; omega) (by simp at hi; omega)]
        simp]
      rw [hpa]
      simp
    · rw [ih (by omega) fun i hi hne => ho i (by omega) hne,
        ho m (by omega) fun h => ham h.symm]
      simp

theorem countP_range_eq_two {p : Nat → Bool} {n a b : Nat} (hab : a ≠ b)
    (ha : a < n) (hb : b < n) (hpa : p a = true) (hpb : p b = true)
    (ho : ∀ i, i < n → i ≠ a → i ≠ b → p i = false) :
    (List.range n).countP p = 2 := by
  induction n with
  | zero => omega
  | succ m ih =>
    rw [countP_range_succ]
    by_cases ham : a = m
    · subst ham
      have hb' : b < a := by omega
      rw [countP_range_eq_one hb' hpb fun i hi hne =>
        ho i (by omega) (by omega) hne, hpa]
      simp
    · by_cases hbm : b = m
      · subst hbm
        have ha' : a < b := by omega
        rw [countP_range_eq_one ha' hpa fun i hi hne =>
          ho i (by omega) hne (by omega), hpb]
        simp
      · rw [ih (by omega) (by omega)
          fun i hi hne1 hne2 => ho i (by omega) hne1 hne2,
          ho m (by omega) (fun h => ham h.symm) (fun h => hbm h.symm)]
        simp

theorem countP_range_eq_zero {p : Nat → Bool} {n : Nat}
    (ho : ∀ i, i < n → p i = false) : (List.range n).countP p = 0 :=
  List.countP_eq_zero.mpr fun i hi => by
    rw [ho i (List.mem_range.mp hi)]
    simp

theorem counts_congr (cfg : Cfg) (m1 m2 : Mem) (hW : 2 ≤ cfg.pageWords)
    (h : ∀ x, x % cfg.pageWords < 2 → m1 x = m2 x) :
    GetActivePageCount cfg m1 = GetActivePageCount cfg m2 ∧
    GetUsedPageCount cfg m1 = GetUsedPageCount cfg m2 := by
  have hs : ∀ i : Nat, m1 (i * cfg.pageWords) = m2 (i * cfg.pageWords) ∧
      m1 (i * cfg.pageWords + 1) = m2 (i * cfg.pageWords + 1) := by
    intro i
    constructor
    · exact h _ (by rw [Nat.mul_mod_left]; omega)
    · exact h _ (by rw [(addr_div_mod cfg.pageWords i 1 (by omega)
        (by omega)).2]; omega)
  constructor <;>
  · apply List.countP_congr
    intro i _
    first
      | rw [show (PageIsActive m1 (i * cfg.pageWords) = true) =
            (PageIsActive m2 (i * cfg.pageWords) = true) by
          unfold PageIsActive
          rw [(hs i).1, (hs i).2]]
      | rw [show (PageIsUsed m1 (i * cfg.pageWords) = true) =
            (PageIsUsed m2 (i * cfg.pageWords) = true) by
          unfold PageIsUsed
          rw [(hs i).1, (hs i).2]]

theorem applyOps_nil (cfg : Cfg) (mem : Mem) : applyOps cfg mem [] = mem :=
  rfl

theorem applyOps_cons (cfg : Cfg) (mem : Mem) (op : MemOp) (ops : List MemOp) :
    applyOps cfg mem (op :: ops) = applyOps cfg (applyOp cfg mem op) ops :=
  rfl

theorem applyOps_append (cfg : Cfg) (mem : Mem) (l1 l2 : List MemOp) :
    applyOps cfg mem (l1 ++ l2) = applyOps cfg (applyOps cfg mem l1) l2 :=
  List.foldl_append _ _ _ _

theorem allPrefixes_nil (P : Mem → Prop) (cfg : Cfg) (mem : Mem)
    (h0 : P mem) : ∀ n, P (applyOps cfg mem (List.take n [])) := by
  intro n
  rw [List.take_nil]
  exact h0

theorem allPrefixes_cons (P : Mem → Prop) (cfg : Cfg) (op : MemOp)
    (ops : List MemOp) (mem : Mem) (h0 : P mem)
    (h1 : ∀ n, P (applyOps cfg (applyOp cfg mem op) (ops.take n))) :
    ∀ n, P (applyOps cfg mem ((op :: ops).take n)) := by
  intro n
  match n with
  | 0 => exact h0
  | Nat.succ m =>
    rw [List.take_succ_cons, applyOps_cons]
    exact h1 m

theorem allPrefixes_append (P : Mem → Prop) (cfg : Cfg) (l1 l2 : List MemOp)
    (mem : Mem) (h1 : ∀ n, P (applyOps cfg mem (l1.take n)))
    (h2 : ∀ n, P (applyOps cfg (applyOps cfg mem l1) (l2.take n))) :
    ∀ n, P (applyOps cfg mem ((l1 ++ l2).take n)) := by
  intro n
  by_cases hn : n ≤ l1.length
  · rw [List.take_append_of_le_length hn]
    exact h1 n
  · rw [List.take_append_eq_append_take,
      List.take_of_length_le (by omega), applyOps_append]
    exact h2 (n - l1.length)

theorem opsOfList_status (cfg : Cfg) (l : List Nat) :
    ∀ (a : Nat) (mem : Mem),
      (∀ i, i < l.length → 2 ≤ (a + i) % cfg.pageWords) →
      ∀ n x, x % cfg.pageWords < 2 →
        applyOps cfg mem ((opsOfList a l).take n) x = mem x := by
  induction l with
  | nil =>
    intro a mem _ n x _
    rw [show opsOfList a [] = [] from rfl, List.take_nil]
    rfl
  | cons w ws ih =>
    intro a mem hok n x hx
    rw [show opsOfList a (w :: ws) = MemOp.prog a w :: opsOfList (a + 1) ws
      from rfl]
    match n with
    | 0 => rfl
    | Nat.succ m =>
      rw [List.take_succ_cons, applyOps_cons]
      have hne : x ≠ a := by
        intro heq
        subst heq
        have := hok 0 (by simp)
        rw [Nat.add_zero] at this
        omega
      rw [ih (a + 1) (applyOp cfg mem (MemOp.prog a w))
          (fun i hi => by
            have := hok (i + 1) (by simp; omega)
            rw [show a + 1 + i = a + (i + 1) by omega]
            exact this)
          m x hx]
      show progWord mem a w x = mem x
      exact progWord_ne _ _ _ _ hne


theorem applyOps_opsOfList (cfg : Cfg) (l : List Nat) :
    ∀ (a : Nat) (mem : Mem),
      applyOps cfg mem (opsOfList a l) = writeList mem a l := by
  induction l with
  | nil => intro a mem; rfl
  | cons w ws ih =>
    intro a mem
    rw [show opsOfList a (w :: ws) = MemOp.prog a w :: opsOfList (a + 1) ws
      from rfl, applyOps_cons]
    show applyOps cfg (progWord mem a w) (opsOfList (a + 1) ws) = _
    rw [ih]
    rfl

/-- The mutation list of SoftEEPROMClear is faithful: folding it over the
medium yields exactly the medium SoftEEPROMClear leaves behind. -/
theorem clearOps_mem_eq (cfg : Cfg) (s : EEState)
    (hinit : s.initialized = true) (hpw : 2 ≤ cfg.pageWords) :
    applyOps cfg s.mem (SoftEEPROMClearOps cfg s) =
      (SoftEEPROMClear idealFlash cfg s).2.mem := by
  unfold SoftEEPROMClear SoftEEPROMClearOps
  rw [if_neg (by simp [hinit])]
  have hpe : ∀ (m : Mem) (p : Nat), PageErase idealFlash cfg m p =
      some (eraseRegion m p cfg.pageWords) := fun m p =>
    pageErase_ideal cfg m p hpw
  simp only [hpe, pageDataWrite_ideal]
  rfl

/-- The mutation list of SoftEEPROMWrite is faithful: folding it over the
medium yields exactly the medium SoftEEPROMWrite leaves behind (also on the
paths that reject the request or abort after the swap). -/
theorem writeOps_mem_eq (cfg : Cfg) (s : EEState) (usID usData : Nat)
    (hpw : 2 ≤ cfg.pageWords) :
    applyOps cfg s.mem (SoftEEPROMWriteOps cfg s usID usData) =
      (SoftEEPROMWrite idealFlash cfg s usID usData).2.mem := by
  have hpe : ∀ (m : Mem) (p : Nat), PageErase idealFlash cfg m p =
      some (eraseRegion m p cfg.pageWords) := fun m p =>
    pageErase_ideal cfg m p hpw
  unfold SoftEEPROMWrite SoftEEPROMWriteOps PageSwap PageSwapOps
  by_cases hinit : s.initialized
  · rw [if_neg (show ¬(!s.initialized) = true by simp [hinit]),
      if_neg (show ¬(!s.initialized) = true by simp [hinit])]
    by_cases hid : NUM_IDS ≤ usID
    · rw [if_pos hid, if_pos hid]
      rfl
    · rw [if_neg hid, if_neg hid]
      by_cases hfull : s.activePage + cfg.pageWords ≤ s.nextAvailEntry
      · rw [if_pos hfull]
        simp only [hpe, pageDataWrite_ideal]
        split <;> rename_i hc
        · rw [if_neg (by simp), if_neg (by simp)]
          simp only [applyOps_append, applyOps_cons, applyOps_opsOfList,
            applyOps_nil]
          rfl
        · rw [if_pos (by simp [ERR_SWAP, ERR_AVAIL_ENTRY]),
            if_pos (by simp [ERR_SWAP, ERR_AVAIL_ENTRY])]
          simp only [applyOps_append, applyOps_cons, applyOps_opsOfList,
            applyOps_nil]
          rfl
      · rw [if_neg hfull, if_neg hfull]
        simp only [pageDataWrite_ideal]
        rfl
  · have hinit' : s.initialized = false := by
      simp only [Bool.not_eq_true] at hinit
      exact hinit
    rw [if_pos (show (!s.initialized) = true by simp [hinit']),
      if_pos (show (!s.initialized) = true by simp [hinit'])]
    rfl

theorem applyOps_single_prog (cfg : Cfg) (mem : Mem) (a v : Nat) :
    applyOps cfg mem [MemOp.prog a v] = progWord mem a v :=
  rfl

theorem writeList_outside_page (l : List Nat) (mem : Mem) (W i j k : Nat)
    (hW : 0 < W) (hk : k < W) (hij : i ≠ j) (hlen : 2 + l.length ≤ W) :
    writeList mem (j * W + 2) l (i * W + k) = mem (i * W + k) := by
  rcases Nat.lt_or_ge i j with h | h
  · apply writeList_out_lt
    have h2 : (i + 1) * W ≤ j * W := Nat.mul_le_mul_right _ (by omega)
    rw [Nat.succ_mul] at h2
    omega
  · apply writeList_out_ge
    have h2 : (j + 1) * W ≤ i * W := Nat.mul_le_mul_right _ (by omega)
    rw [Nat.succ_mul] at h2
    omega

theorem pageIsActive_true_iff (m : Mem) (p : Nat) :
    PageIsActive m p = true ↔
      m p ≠ ERASED_WORD ∧ m (p + 1) = ERASED_WORD := by
  unfold PageIsActive
  rw [Bool.and_eq_true, bne_iff_ne, beq_iff_eq]

theorem pageIsActive_true_of (m : Mem) (p : Nat)
    (h1 : m p ≠ ERASED_WORD) (h2 : m (p + 1) = ERASED_WORD) :
    PageIsActive m p = true :=
  (pageIsActive_true_iff m p).mpr ⟨h1, h2⟩

theorem pageIsActive_false_of_fst (m : Mem) (p : Nat)
    (h : m p = ERASED_WORD) : PageIsActive m p = false := by
  unfold PageIsActive
  rw [h]
  simp

theorem pageIsActive_false_of_snd (m : Mem) (p : Nat)
    (h : m (p + 1) ≠ ERASED_WORD) : PageIsActive m p = false := by
  unfold PageIsActive
  simp [h]

theorem pageIsActive_congr (m1 m2 : Mem) (p : Nat)
    (h0 : m1 p = m2 p) (h1 : m1 (p + 1) = m2 (p + 1)) :
    PageIsActive m1 p = PageIsActive m2 p := by
  unfold PageIsActive
  rw [h0, h1]

theorem pageIsUsed_true_of (m : Mem) (p : Nat)
    (h1 : m p ≠ ERASED_WORD) (h2 : m (p + 1) ≠ ERASED_WORD) :
    PageIsUsed m p = true := by
  unfold PageIsUsed
  simp [h1, h2]

theorem activeCount_one (cfg : Cfg) (mem : Mem) (a : Nat)
    (ha : a < cfg.numPages)
    (hpa : PageIsActive mem (a * cfg.pageWords) = true)
    (ho : ∀ j, j < cfg.numPages → j ≠ a →
      PageIsActive mem (j * cfg.pageWords) = false) :
    GetActivePageCount cfg mem = 1 :=
  countP_range_eq_one ha hpa ho

theorem activeCount_two (cfg : Cfg) (mem : Mem) (a b : Nat) (hab : a ≠ b)
    (ha : a < cfg.numPages) (hb : b < cfg.numPages)
    (hpa : PageIsActive mem (a * cfg.pageWords) = true)
    (hpb : PageIsActive mem (b * cfg.pageWords) = true)
    (ho : ∀ j, j < cfg.numPages → j ≠ a → j ≠ b →
      PageIsActive mem (j * cfg.pageWords) = false) :
    GetActivePageCount cfg mem = 2 :=
  countP_range_eq_two hab ha hb hpa hpb ho

theorem activeCount_zero (cfg : Cfg) (mem : Mem)
    (ho : ∀ j, j < cfg.numPages →
      PageIsActive mem (j * cfg.pageWords) = false) :
    GetActivePageCount cfg mem = 0 :=
  countP_range_eq_zero ho

theorem usedCount_pos (cfg : Cfg) (mem : Mem) (a : Nat)
    (ha : a < cfg.numPages)
    (hpa : PageIsUsed mem (a * cfg.pageWords) = true) :
    1 ≤ GetUsedPageCount cfg mem := by
  by_contra hcon
  push_neg at hcon
  have h0 : GetUsedPageCount cfg mem = 0 := by omega
  have h1 := List.countP_eq_zero.mp h0 _ (List.mem_range.mpr ha)
  simp [hpa] at h1

theorem count_progWord_entry (cfg : Cfg) (mem : Mem) (a v : Nat)
    (ha : 2 ≤ a % cfg.pageWords) (hW : 2 ≤ cfg.pageWords) :
    GetActivePageCount cfg (progWord mem a v) = GetActivePageCount cfg mem :=
  (counts_congr cfg (progWord mem a v) mem hW fun x hx =>
    progWord_ne mem a v x fun heq => by subst heq; omega).1

/-- Page-status accounting along the medium mutations of PageSwap: every
intermediate state keeps between one and two Active pages (the new page is
activated before the old page is retired), the final state has exactly one
Active page, and appending the entry program of the surrounding write (its
address lying in the new page's entry area) preserves that count. -/
theorem swapOps_counts (cfg : Cfg) (s : EEState) (ia jn : Nat)
    (hpw : 3 ≤ cfg.pageWords) (hia : ia < cfg.numPages)
    (hjn : jn < cfg.numPages) (hjne : jn ≠ ia)
    (haddr : s.activePage = ia * cfg.pageWords)
    (hnpe : nextPageAddr cfg s.activePage = jn * cfg.pageWords)
    (hA1 : s.mem s.activePage ≠ ERASED_WORD)
    (hA2 : s.mem (s.activePage + 1) = ERASED_WORD)
    (hF : ∀ j, j < cfg.numPages → j ≠ ia →
      PageIsActive s.mem (j * cfg.pageWords) = false)
    (hcnt : s.mem s.activePage + 1 < ERASED_WORD) :
    (∀ n, 1 ≤ GetActivePageCount cfg
        (applyOps cfg s.mem ((PageSwapOps cfg s s.activePage).take n)) ∧
      GetActivePageCount cfg
        (applyOps cfg s.mem ((PageSwapOps cfg s s.activePage).take n)) ≤ 2) ∧
    GetActivePageCount cfg
      (applyOps cfg s.mem (PageSwapOps cfg s s.activePage)) = 1 ∧
    (nextPageAddr cfg s.activePage + 2 +
        (PageSwapCopied cfg
          (eraseRegion s.mem (nextPageAddr cfg s.activePage) cfg.pageWords)
          s.activePage).length <
      nextPageAddr cfg s.activePage + cfg.pageWords →
      ∀ v n,
        1 ≤ GetActivePageCount cfg
            (applyOps cfg
              (applyOps cfg s.mem (PageSwapOps cfg s s.activePage))
              (([MemOp.prog
                  (nextPageAddr cfg s.activePage + 2 +
                    (PageSwapCopied cfg
                      (eraseRegion s.mem (nextPageAddr cfg s.activePage)
                        cfg.pageWords)
                      s.activePage).length) v]).take n)) ∧
        GetActivePageCount cfg
            (applyOps cfg
              (applyOps cfg s.mem (PageSwapOps cfg s s.activePage))
              (([MemOp.prog
                  (nextPageAddr cfg s.activePage + 2 +
                    (PageSwapCopied cfg
                      (eraseRegion s.mem (nextPageAddr cfg s.activePage)
                        cfg.pageWords)
                      s.activePage).length) v]).take n)) ≤ 2) := by
  have hWpos : 0 < cfg.pageWords := by omega
  have hW2 : 2 ≤ cfg.pageWords := by omega
  have he : ERASED_WORD = 4294967295 := rfl
  have hcc : s.mem s.activePage + 1 < 4294967295 := by rw [he] at hcnt; exact hcnt
  have hcell : ∀ j k j' k', k < cfg.pageWords → k' < cfg.pageWords → j ≠ j' →
      j * cfg.pageWords + k ≠ j' * cfg.pageWords + k' := by
    intro j k j' k' hk hk' hjj heq
    exact hjj (page_addr_inj cfg.pageWords j j' k k' hWpos hk hk' heq).1
  set NP := nextPageAddr cfg s.activePage with hNP
  set M1 := eraseRegion s.mem NP cfg.pageWords with hM1
  set C := PageSwapCopied cfg M1 s.activePage with hC
  set M2 := writeList M1 (NP + 2) C with hM2
  set g := (M2 s.activePage + 1) % 4294967296 with hg
  set M3 := progWord M2 NP g with hM3
  set M4 := progWord M3 (s.activePage + 1) 0 with hM4
  have hNPjn : NP = jn * cfg.pageWords := by rw [hNP]; exact hnpe
  have hshape : PageSwapOps cfg s s.activePage =
      MemOp.erasePg NP ::
        (opsOfList (NP + 2) C ++
          [MemOp.prog NP g, MemOp.prog (s.activePage + 1) 0]) := rfl
  have hlen : C.length ≤ cfg.pageWords - 2 := by
    rw [hC]
    unfold PageSwapCopied
    calc (swapScan (fun _ => false)
          (pageEntries cfg M1 s.activePage).reverse).length
        ≤ (pageEntries cfg M1 s.activePage).reverse.length :=
          swapScan_length_le _ _
      _ = cfg.pageWords - 2 := by
          rw [List.length_reverse, pageEntries_length]
  have harg : ∀ i, i < C.length → 2 ≤ (NP + 2 + i) % cfg.pageWords := by
    intro i hi
    rw [hNPjn,
      show jn * cfg.pageWords + 2 + i = jn * cfg.pageWords + (2 + i) from by
        omega,
      (addr_div_mod cfg.pageWords jn (2 + i) hWpos (by omega)).2]
    omega
  have hM1out : ∀ j k, k < cfg.pageWords → j ≠ jn →
      M1 (j * cfg.pageWords + k) = s.mem (j * cfg.pageWords + k) := by
    intro j k hk hje
    rw [hM1, hNPjn]
    exact eraseRegion_outside_page s.mem cfg.pageWords hWpos j jn hje k hk
  have hM1in : ∀ k, k < cfg.pageWords →
      M1 (jn * cfg.pageWords + k) = ERASED_WORD := by
    intro k hk
    rw [hM1, hNPjn]
    exact eraseRegion_in _ _ _ _ ⟨by omega, by omega⟩
  have hM2stat : ∀ x, x % cfg.pageWords < 2 → M2 x = M1 x := by
    intro x hx
    have h := opsOfList_status cfg C (NP + 2) M1 harg
      ((opsOfList (NP + 2) C).length) x hx
    rw [List.take_length, applyOps_opsOfList] at h
    rw [hM2]
    exact h
  have hM2out : ∀ j k, k < cfg.pageWords → j ≠ jn →
      M2 (j * cfg.pageWords + k) = M1 (j * cfg.pageWords + k) := by
    intro j k hk hje
    rw [hM2, hNPjn]
    exact writeList_outside_page C M1 cfg.pageWords j jn k hWpos hk hje
      (by omega)
  have hA0 : M2 (ia * cfg.pageWords) = s.mem (ia * cfg.pageWords) :=
    (hM2out ia 0 (by omega) (Ne.symm hjne)).trans
      (hM1out ia 0 (by omega) (Ne.symm hjne))
  have hA1e : M2 (ia * cfg.pageWords + 1) = s.mem (ia * cfg.pageWords + 1) :=
    (hM2out ia 1 (by omega) (Ne.symm hjne)).trans
      (hM1out ia 1 (by omega) (Ne.symm hjne))
  have hgval : g = s.mem s.activePage + 1 := by
    rw [hg, show M2 s.activePage = s.mem s.activePage from by
      rw [haddr]; exact hA0]
    exact Nat.mod_eq_of_lt (by omega)
  have hgne : g ≠ ERASED_WORD := by
    rw [hgval, he]
    omega
  have hM3np0 : M3 (jn * cfg.pageWords) = g := by
    rw [hM3, hNPjn]
    exact progWord_self M2 _ g
  have hM3np1 : M3 (jn * cfg.pageWords + 1) = ERASED_WORD := by
    rw [hM3, progWord_ne M2 NP g _ (by rw [hNPjn]; omega),
      hM2stat _ (by
        rw [(addr_div_mod cfg.pageWords jn 1 hWpos (by omega)).2]
        omega)]
    exact hM1in 1 (by omega)
  have hM3out : ∀ j k, k < cfg.pageWords → j ≠ jn →
      M3 (j * cfg.pageWords + k) = M2 (j * cfg.pageWords + k) := by
    intro j k hk hje
    rw [hM3]
    exact progWord_ne M2 NP g _ (by
      have := hcell j k jn 0 hk (by omega) hje
      rw [hNPjn]
      omega)
  have hM4out : ∀ j k, k < cfg.pageWords → j ≠ ia →
      M4 (j * cfg.pageWords + k) = M3 (j * cfg.pageWords + k) := by
    intro j k hk hje
    rw [hM4, haddr]
    exact progWord_ne M3 (ia * cfg.pageWords + 1) 0 _
      (hcell j k ia 1 hk (by omega) hje)
  have hM4A1 : M4 (ia * cfg.pageWords + 1) = 0 := by
    rw [hM4, haddr]
    exact progWord_self M3 _ 0
  have hcnt0 : GetActivePageCount cfg s.mem = 1 := by
    refine activeCount_one cfg s.mem ia hia ?_ hF
    rw [← haddr]
    exact pageIsActive_true_of s.mem s.activePage hA1 hA2
  have hact1 : PageIsActive M1 (ia * cfg.pageWords) = true := by
    rw [pageIsActive_congr M1 s.mem _
      (show M1 (ia * cfg.pageWords) = s.mem (ia * cfg.pageWords) from
        hM1out ia 0 (by omega) (Ne.symm hjne))
      (hM1out ia 1 (by omega) (Ne.symm hjne)), ← haddr]
    exact pageIsActive_true_of s.mem s.activePage hA1 hA2
  have hcnt1 : GetActivePageCount cfg M1 = 1 := by
    refine activeCount_one cfg M1 ia hia hact1 ?_
    intro j hj hje
    by_cases hjj : j = jn
    · subst hjj
      exact pageIsActive_false_of_fst M1 _ (hM1in 0 (by omega))
    · rw [pageIsActive_congr M1 s.mem _
        (show M1 (j * cfg.pageWords) = s.mem (j * cfg.pageWords) from
          hM1out j 0 (by omega) hjj)
        (hM1out j 1 (by omega) hjj)]
      exact hF j hj hje
  have hcnt2 : GetActivePageCount cfg M2 = 1 := by
    rw [(counts_congr cfg M2 M1 hW2 hM2stat).1]
    exact hcnt1
  have hcnt3 : GetActivePageCount cfg M3 = 2 := by
    refine activeCount_two cfg M3 jn ia hjne hjn hia ?_ ?_ ?_
    · refine pageIsActive_true_of M3 _ ?_ hM3np1
      rw [hM3np0]
      exact hgne
    · refine pageIsActive_true_of M3 _ ?_ ?_
      · rw [show M3 (ia * cfg.pageWords) = s.mem (ia * cfg.pageWords) from
          (hM3out ia 0 (by omega) (Ne.symm hjne)).trans hA0, ← haddr]
        exact hA1
      · rw [(hM3out ia 1 (by omega) (Ne.symm hjne)).trans hA1e, ← haddr]
        exact hA2
    · intro j hj hj1 hj2
      rw [pageIsActive_congr M3 s.mem _
        (show M3 (j * cfg.pageWords) = s.mem (j * cfg.pageWords) from
          (hM3out j 0 (by omega) hj1).trans
            ((hM2out j 0 (by omega) hj1).trans (hM1out j 0 (by omega) hj1)))
        ((hM3out j 1 (by omega) hj1).trans
          ((hM2out j 1 (by omega) hj1).trans (hM1out j 1 (by omega) hj1)))]
      exact hF j hj hj2
  have hcnt4 : GetActivePageCount cfg M4 = 1 := by
    refine activeCount_one cfg M4 jn hjn ?_ ?_
    · refine pageIsActive_true_of M4 _ ?_ ?_
      · rw [show M4 (jn * cfg.pageWords) = g from
          (hM4out jn 0 (by omega) hjne).trans hM3np0]
        exact hgne
      · exact (hM4out jn 1 (by omega) hjne).trans hM3np1
    · intro j hj hje
      by_cases hji : j = ia
      · subst hji
        refine pageIsActive_false_of_snd M4 _ ?_
        rw [hM4A1, he]
        omega
      · rw [pageIsActive_congr M4 s.mem _
          (show M4 (j * cfg.pageWords) = s.mem (j * cfg.pageWords) from
            (hM4out j 0 (by omega) hji).trans
              ((hM3out j 0 (by omega) hje).trans
                ((hM2out j 0 (by omega) hje).trans
                  (hM1out j 0 (by omega) hje))))
          ((hM4out j 1 (by omega) hji).trans
            ((hM3out j 1 (by omega) hje).trans
              ((hM2out j 1 (by omega) hje).trans
                (hM1out j 1 (by omega) hje))))]
        exact hF j hj hji
  have hmid : ∀ n,
      1 ≤ GetActivePageCount cfg
        (applyOps cfg M1 ((opsOfList (NP + 2) C).take n)) ∧
      GetActivePageCount cfg
        (applyOps cfg M1 ((opsOfList (NP + 2) C).take n)) ≤ 2 := by
    intro n
    have hcg := (counts_congr cfg
      (applyOps cfg M1 ((opsOfList (NP + 2) C).take n)) M1 hW2
      (fun x hx => opsOfList_status cfg C (NP + 2) M1 harg n x hx)).1
    omega
  have htail : ∀ n,
      1 ≤ GetActivePageCount cfg
        (applyOps cfg (applyOps cfg M1 (opsOfList (NP + 2) C))
          (([MemOp.prog NP g, MemOp.prog (s.activePage + 1) 0]).take n)) ∧
      GetActivePageCount cfg
        (applyOps cfg (applyOps cfg M1 (opsOfList (NP + 2) C))
          (([MemOp.prog NP g, MemOp.prog (s.activePage + 1) 0]).take n)) ≤
        2 := by
    intro n
    rw [applyOps_opsOfList, ← hM2]
    match n with
    | 0 =>
      rw [List.take_zero, applyOps_nil]
      omega
    | 1 =>
      rw [List.take_succ_cons, List.take_zero, applyOps_single_prog, ← hM3]
      omega
    | m + 2 =>
      rw [List.take_succ_cons, List.take_succ_cons, List.take_nil,
        show applyOps cfg M2
          [MemOp.prog NP g, MemOp.prog (s.activePage + 1) 0] = M4 from rfl]
      omega
  have hrest : ∀ n,
      1 ≤ GetActivePageCount cfg
        (applyOps cfg M1
          ((opsOfList (NP + 2) C ++
            [MemOp.prog NP g, MemOp.prog (s.activePage + 1) 0]).take n)) ∧
      GetActivePageCount cfg
        (applyOps cfg M1
          ((opsOfList (NP + 2) C ++
            [MemOp.prog NP g, MemOp.prog (s.activePage + 1) 0]).take n)) ≤
        2 :=
    allPrefixes_append
      (fun mm => 1 ≤ GetActivePageCount cfg mm ∧
        GetActivePageCount cfg mm ≤ 2)
      cfg _ _ M1 hmid htail
  have hbounds : ∀ n,
      1 ≤ GetActivePageCount cfg
        (applyOps cfg s.mem ((PageSwapOps cfg s s.activePage).take n)) ∧
      GetActivePageCount cfg
        (applyOps cfg s.mem ((PageSwapOps cfg s s.activePage).take n)) ≤
        2 := by
    intro n
    rw [hshape]
    exact allPrefixes_cons
      (fun mm => 1 ≤ GetActivePageCount cfg mm ∧
        GetActivePageCount cfg mm ≤ 2)
      cfg (MemOp.erasePg NP)
      (opsOfList (NP + 2) C ++
        [MemOp.prog NP g, MemOp.prog (s.activePage + 1) 0])
      s.mem ⟨by omega, by omega⟩ hrest n
  have hfullEq : applyOps cfg s.mem (PageSwapOps cfg s s.activePage) = M4 := by
    rw [hshape, applyOps_cons, applyOps_append, applyOps_opsOfList]
    rfl
  refine ⟨hbounds, by rw [hfullEq]; exact hcnt4, ?_⟩
  intro hc v n
  rw [hfullEq]
  match n with
  | 0 =>
    rw [List.take_zero, applyOps_nil]
    omega
  | m + 1 =>
    rw [List.take_succ_cons, List.take_nil, applyOps_single_prog]
    have hamod : 2 ≤ (NP + 2 + C.length) % cfg.pageWords := by
      rw [hNPjn, Nat.add_assoc,
        (addr_div_mod cfg.pageWords jn (2 + C.length) hWpos (by omega)).2]
      omega
    rw [count_progWord_entry cfg M4 (NP + 2 + C.length) v hamod hW2]
    omega

/-- Page-status accounting along the medium mutations of SoftEEPROMClear:
after the first program (retiring the active page) the medium has zero
Active pages until the new page's activation in the third operation, so
every intermediate state has at most one Active page, and whenever it has
none it has at least one Used page. -/
theorem clearOps_counts (cfg : Cfg) (s : EEState) (ia jn : Nat)
    (hpw : 3 ≤ cfg.pageWords) (hia : ia < cfg.numPages)
    (hjn : jn < cfg.numPages) (hjne : jn ≠ ia)
    (haddr : s.activePage = ia * cfg.pageWords)
    (hnpe : nextPageAddr cfg s.activePage = jn * cfg.pageWords)
    (hA1 : s.mem s.activePage ≠ ERASED_WORD)
    (hA2 : s.mem (s.activePage + 1) = ERASED_WORD)
    (hF : ∀ j, j < cfg.numPages → j ≠ ia →
      PageIsActive s.mem (j * cfg.pageWords) = false)
    (hcnt : s.mem s.activePage + 1 < ERASED_WORD) :
    ∀ n,
      GetActivePageCount cfg
        (applyOps cfg s.mem ((SoftEEPROMClearOps cfg s).take n)) ≤ 1 ∧
      (GetActivePageCount cfg
          (applyOps cfg s.mem ((SoftEEPROMClearOps cfg s).take n)) = 0 →
        1 ≤ GetUsedPageCount cfg
          (applyOps cfg s.mem ((SoftEEPROMClearOps cfg s).take n))) := by
  have hWpos : 0 < cfg.pageWords := by omega
  have hW2 : 2 ≤ cfg.pageWords := by omega
  have he : ERASED_WORD = 4294967295 := rfl
  have hcc : s.mem s.activePage + 1 < 4294967295 := by rw [he] at hcnt; exact hcnt
  have hcell : ∀ j k j' k', k < cfg.pageWords → k' < cfg.pageWords → j ≠ j' →
      j * cfg.pageWords + k ≠ j' * cfg.pageWords + k' := by
    intro j k j' k' hk hk' hjj heq
    exact hjj (page_addr_inj cfg.pageWords j j' k k' hWpos hk hk' heq).1
  set NP := nextPageAddr cfg s.activePage with hNP
  set K1 := progWord s.mem (s.activePage + 1) 0 with hK1
  set K2 := eraseRegion K1 NP cfg.pageWords with hK2
  set v := (K2 s.activePage + 1) % 4294967296 with hv
  set K3 := progWord K2 NP v with hK3
  have hNPjn : NP = jn * cfg.pageWords := by rw [hNP]; exact hnpe
  have hK1ne : ∀ x, x ≠ s.activePage + 1 → K1 x = s.mem x := by
    intro x hx
    rw [hK1]
    exact progWord_ne _ _ _ _ hx
  have hK1self : K1 (s.activePage + 1) = 0 := by
    rw [hK1]
    exact progWord_self _ _ _
  have hKF1 : ∀ j, j < cfg.numPages →
      PageIsActive K1 (j * cfg.pageWords) = false := by
    intro j hj
    by_cases hji : j = ia
    · subst hji
      refine pageIsActive_false_of_snd K1 _ ?_
      rw [← haddr, hK1self, he]
      omega
    · rw [pageIsActive_congr K1 s.mem _
        (show K1 (j * cfg.pageWords) = s.mem (j * cfg.pageWords) from
          hK1ne _ (by have := hcell j 0 ia 1 (by omega) (by omega) hji; omega))
        (hK1ne _ (by have := hcell j 1 ia 1 (by omega) (by omega) hji; omega))]
      exact hF j hj hji
  have hcK1 : GetActivePageCount cfg K1 = 0 := activeCount_zero cfg K1 hKF1
  have huseK1 : PageIsUsed K1 (ia * cfg.pageWords) = true := by
    refine pageIsUsed_true_of K1 _ ?_ ?_
    · rw [show K1 (ia * cfg.pageWords) = s.mem (ia * cfg.pageWords) from
        hK1ne _ (by omega), ← haddr]
      exact hA1
    · rw [show K1 (ia * cfg.pageWords + 1) = 0 from by
        rw [← haddr]; exact hK1self, he]
      omega
  have huK1 : 1 ≤ GetUsedPageCount cfg K1 :=
    usedCount_pos cfg K1 ia hia huseK1
  have hK2out : ∀ j k, k < cfg.pageWords → j ≠ jn →
      K2 (j * cfg.pageWords + k) = K1 (j * cfg.pageWords + k) := by
    intro j k hk hje
    rw [hK2, hNPjn]
    exact eraseRegion_outside_page K1 cfg.pageWords hWpos j jn hje k hk
  have hK2in : ∀ k, k < cfg.pageWords →
      K2 (jn * cfg.pageWords + k) = ERASED_WORD := by
    intro k hk
    rw [hK2, hNPjn]
    exact eraseRegion_in _ _ _ _ ⟨by omega, by omega⟩
  have hKF2 : ∀ j, j < cfg.numPages →
      PageIsActive K2 (j * cfg.pageWords) = false := by
    intro j hj
    by_cases hjj : j = jn
    · subst hjj
      exact pageIsActive_false_of_fst K2 _ (hK2in 0 (by omega))
    · rw [pageIsActive_congr K2 K1 _
        (show K2 (j * cfg.pageWords) = K1 (j * cfg.pageWords) from
          hK2out j 0 (by omega) hjj)
        (hK2out j 1 (by omega) hjj)]
      exact hKF1 j hj
  have hcK2 : GetActivePageCount cfg K2 = 0 := activeCount_zero cfg K2 hKF2
  have huK2 : 1 ≤ GetUsedPageCount cfg K2 := by
    refine usedCount_pos cfg K2 ia hia ?_
    refine pageIsUsed_true_of K2 _ ?_ ?_
    · rw [show K2 (ia * cfg.pageWords) = K1 (ia * cfg.pageWords) from
        hK2out ia 0 (by omega) (Ne.symm hjne),
        show K1 (ia * cfg.pageWords) = s.mem (ia * cfg.pageWords) from
        hK1ne _ (by omega), ← haddr]
      exact hA1
    · rw [hK2out ia 1 (by omega) (Ne.symm hjne),
        show K1 (ia * cfg.pageWords + 1) = 0 from by
          rw [← haddr]; exact hK1self, he]
      omega
  have hK2A : K2 s.activePage = s.mem s.activePage := by
    rw [haddr]
    exact (hK2out ia 0 (by omega) (Ne.symm hjne)).trans
      (hK1ne _ (by omega))
  have hvval : v = s.mem s.activePage + 1 := by
    rw [hv, hK2A]
    exact Nat.mod_eq_of_lt (by omega)
  have hvne : v ≠ ERASED_WORD := by
    rw [hvval, he]
    omega
  have hK3out : ∀ j k, k < cfg.pageWords → j ≠ jn →
      K3 (j * cfg.pageWords + k) = K2 (j * cfg.pageWords + k) := by
    intro j k hk hje
    rw [hK3]
    refine progWord_ne K2 NP v _ ?_
    have := hcell j k jn 0 hk (by omega) hje
    rw [hNPjn]
    omega
  have hK3np0 : K3 (jn * cfg.pageWords) = v := by
    rw [hK3, hNPjn]
    exact progWord_self K2 _ v
  have hK3np1 : K3 (jn * cfg.pageWords + 1) = ERASED_WORD := by
    rw [hK3, progWord_ne K2 NP v _ (by rw [hNPjn]; omega)]
    exact hK2in 1 (by omega)
  have hcK3 : GetActivePageCount cfg K3 = 1 := by
    refine activeCount_one cfg K3 jn hjn ?_ ?_
    · refine pageIsActive_true_of K3 _ ?_ hK3np1
      rw [hK3np0]
      exact hvne
    · intro j hj hje
      rw [pageIsActive_congr K3 K2 _
        (show K3 (j * cfg.pageWords) = K2 (j * cfg.pageWords) from
          hK3out j 0 (by omega) hje)
        (hK3out j 1 (by omega) hje)]
      exact hKF2 j hj
  have hc0 : GetActivePageCount cfg s.mem = 1 := by
    refine activeCount_one cfg s.mem ia hia ?_ hF
    rw [← haddr]
    exact pageIsActive_true_of s.mem s.activePage hA1 hA2
  have e0 : applyOps cfg s.mem ((SoftEEPROMClearOps cfg s).take 0) = s.mem :=
    rfl
  have e1 : applyOps cfg s.mem ((SoftEEPROMClearOps cfg s).take 1) = K1 := by
    rw [hK1]
    exact rfl
  have e2 : applyOps cfg s.mem ((SoftEEPROMClearOps cfg s).take 2) = K2 := by
    rw [hK2, hK1, hNP]
    exact rfl
  have e3 : applyOps cfg s.mem (SoftEEPROMClearOps cfg s) = K3 := by
    rw [hK3, hv, hK2, hK1, hNP]
    exact rfl
  intro n
  match n with
  | 0 =>
    rw [e0, hc0]
    exact ⟨by omega, fun h => absurd h (by omega)⟩
  | 1 =>
    rw [e1, hcK1]
    exact ⟨by omega, fun _ => huK1⟩
  | 2 =>
    rw [e2, hcK2]
    exact ⟨by omega, fun _ => huK2⟩
  | m + 3 =>
    rw [List.take_of_length_le (show (SoftEEPROMClearOps cfg s).length ≤ m + 3
        from by show 3 ≤ m + 3; omega), e3, hcK3]
    exact ⟨by omega, fun h => absurd h (by omega)⟩

/-- Claim C2: the claim asserts that no reachable intermediate state has
zero Active pages.  It is refuted on the clear path: from the freshly
initialized two-page engine, whose medium has exactly one Active page,
applying only the first medium operation of SoftEEPROMClear (the code
programs the retiring page's second status word before activating the next
page) leaves a medium with zero Active pages. -/
theorem c2_counterexample_zero_active_during_clear :
    GetActivePageCount cfgA sFreshA.mem = 1 ∧
    GetActivePageCount cfgA
      (applyOps cfgA sFreshA.mem
        ((SoftEEPROMClearOps cfgA sFreshA).take 1)) = 0 := by
  decide

/-- Claim C2, amended: from any state satisfying the steady-state invariant
whose medium has exactly one Active page (the active one) and an
unsaturated activity counter, every intermediate medium state of
SoftEEPROMWrite — including the states inside a compaction, which activates
the new page before retiring the old one — has at least one and at most two
Active pages; every intermediate medium state of SoftEEPROMClear has at
most one Active page, and whenever it has zero Active pages (the window
after the first program of clear) it retains at least one Used page, the
recoverable crash-during-clear configuration. -/
theorem c2_active_page_invariant_amended (cfg : Cfg) (s : EEState)
    (usID usData : Nat) (hinv : Inv cfg s)
    (hact : ∀ i, i < cfg.numPages →
      (PageIsActive s.mem (i * cfg.pageWords) = true ↔
        i * cfg.pageWords = s.activePage))
    (hcnt : s.mem s.activePage + 1 < ERASED_WORD) :
    (∀ n,
      1 ≤ GetActivePageCount cfg
          (applyOps cfg s.mem
            ((SoftEEPROMWriteOps cfg s usID usData).take n)) ∧
      GetActivePageCount cfg
          (applyOps cfg s.mem
            ((SoftEEPROMWriteOps cfg s usID usData).take n)) ≤ 2) ∧
    (∀ n,
      GetActivePageCount cfg
          (applyOps cfg s.mem ((SoftEEPROMClearOps cfg s).take n)) ≤ 1 ∧
      (GetActivePageCount cfg
          (applyOps cfg s.mem ((SoftEEPROMClearOps cfg s).take n)) = 0 →
        1 ≤ GetUsedPageCount cfg
          (applyOps cfg s.mem ((SoftEEPROMClearOps cfg s).take n)))) := by
  obtain ⟨ia, hia, haddr⟩ := hinv.hap
  have hpw := hinv.hpw
  have hnp2 := hinv.hnp
  have hWpos : 0 < cfg.pageWords := by omega
  have hW2 : 2 ≤ cfg.pageWords := by omega
  obtain ⟨jn, hjn, hnpe0, hjne⟩ := nextPage_spec cfg ia hia hnp2 hWpos
  have hnpe : nextPageAddr cfg s.activePage = jn * cfg.pageWords := by
    rw [haddr]
    exact hnpe0
  have hactT : PageIsActive s.mem s.activePage = true := by
    rw [haddr]
    exact (hact ia hia).mpr haddr.symm
  have hAparts := (pageIsActive_true_iff s.mem s.activePage).mp hactT
  have hA1 := hAparts.1
  have hA2 := hAparts.2
  have hF : ∀ j, j < cfg.numPages → j ≠ ia →
      PageIsActive s.mem (j * cfg.pageWords) = false := by
    intro j hj hje
    by_contra hcon
    rw [Bool.not_eq_false] at hcon
    have h := (hact j hj).mp hcon
    rw [haddr] at h
    exact hje (Nat.eq_of_mul_eq_mul_right hWpos h)
  have hcount0 : GetActivePageCount cfg s.mem = 1 := by
    refine activeCount_one cfg s.mem ia hia ?_ hF
    rw [← haddr]
    exact hactT
  refine ⟨?_, clearOps_counts cfg s ia jn hpw hia hjn hjne haddr hnpe
    hA1 hA2 hF hcnt⟩
  have hswap := swapOps_counts cfg s ia jn hpw hia hjn hjne haddr hnpe
    hA1 hA2 hF hcnt
  intro n
  unfold SoftEEPROMWriteOps
  rw [if_neg (show ¬(!s.initialized) = true by simp [hinv.hinit])]
  by_cases hid : NUM_IDS ≤ usID
  · rw [if_pos hid, List.take_nil]
    show 1 ≤ GetActivePageCount cfg s.mem ∧
      GetActivePageCount cfg s.mem ≤ 2
    omega
  · rw [if_neg hid]
    by_cases hfl : s.activePage + cfg.pageWords ≤ s.nextAvailEntry
    · rw [if_pos hfl]
      have hparts := pageSwap_ideal_parts cfg s hW2
      by_cases hsw : (PageSwap idealFlash cfg s s.activePage).1 = 0
      · rw [if_neg (show
          ¬((PageSwap idealFlash cfg s s.activePage).1 ≠ 0) from
            fun h => h hsw)]
        have hnae : (PageSwap idealFlash cfg s s.activePage).2.nextAvailEntry =
            nextPageAddr cfg s.activePage + 2 +
              (PageSwapCopied cfg
                (eraseRegion s.mem (nextPageAddr cfg s.activePage)
                  cfg.pageWords)
                s.activePage).length := by
          rw [hparts.1]
        rw [hnae]
        have hc := hparts.2.mp hsw
        revert n
        exact allPrefixes_append
          (fun mm => 1 ≤ GetActivePageCount cfg mm ∧
            GetActivePageCount cfg mm ≤ 2)
          cfg _ _ _ hswap.1
          (hswap.2.2 hc (usID % 65536 * 65536 + usData % 65536))
      · rw [if_pos hsw]
        exact hswap.1 n
    · rw [if_neg hfl]
      have hmodnae : 2 ≤ s.nextAvailEntry % cfg.pageWords := by
        have h1 := hinv.hlo
        have h2 : s.nextAvailEntry < s.activePage + cfg.pageWords := by omega
        have h3 : s.nextAvailEntry % cfg.pageWords =
            s.nextAvailEntry - ia * cfg.pageWords := by
          rw [show s.nextAvailEntry =
              ia * cfg.pageWords + (s.nextAvailEntry - ia * cfg.pageWords)
              from by omega,
            (addr_div_mod cfg.pageWords ia
              (s.nextAvailEntry - ia * cfg.pageWords) hWpos (by omega)).2]
          omega
        omega
      match n with
      | 0 =>
        rw [List.take_zero, applyOps_nil]
        omega
      | m + 1 =>
        rw [List.take_succ_cons, List.take_nil, applyOps_single_prog,
          count_progWord_entry cfg s.mem s.nextAvailEntry _ hmodnae hW2]
        omega

/-- Witness for the amended claim C2 on the two-page test configuration:
after the first medium operation of a write from the freshly initialized
engine the medium still has an Active page, and after the first medium
operation of a clear it has at most one. -/
theorem c2_amended_witness :
    (1 ≤ GetActivePageCount cfgA
        (applyOps cfgA sFreshA.mem
          ((SoftEEPROMWriteOps cfgA sFreshA 1 5).take 1)) ∧
      GetActivePageCount cfgA
        (applyOps cfgA sFreshA.mem
          ((SoftEEPROMWriteOps cfgA sFreshA 1 5).take 1)) ≤ 2) ∧
    GetActivePageCount cfgA
      (applyOps cfgA sFreshA.mem
        ((SoftEEPROMClearOps cfgA sFreshA).take 1)) ≤ 1 :=
  ⟨(c2_active_page_invariant_amended cfgA sFreshA 1 5
      (Inv_fresh cfgA (by decide) (by decide) (by decide))
      (by decide) (by decide)).1 1,
    ((c2_active_page_invariant_amended cfgA sFreshA 1 5
      (Inv_fresh cfgA (by decide) (by decide) (by decide))
      (by decide) (by decide)).2 1).1⟩

end SoftEEPROM
